import Mathlib

/-!
Verification of the dst-fish-manager repository's natural-language
specification against a shallow embedding of its Python sources.

Conventions of the embedding:
* Python strings are modelled as `List Char`; `pstr` converts a Lean string
  literal to that representation.
* Python's `re` patterns are compiled by hand into executable matchers that
  reproduce the leftmost, greedy-with-backtracking semantics of the concrete
  patterns appearing in the source (character classes are modelled over the
  ASCII range, which covers every input the claims mention).
* The filesystem visible to a manager method is passed explicitly and the
  method returns the updated filesystem, so a write is an observable change
  of that value and "no write happened" is an equality of states.
* Fallible steps (a Python `raise`) are `Except` values.
-/

namespace DSTFish

/-- The characters Python's `\s` class matches in ASCII range
(`str.strip()` uses the same set). -/
def isPySpace (c : Char) : Bool :=
  c = ' ' || c = '\t' || c = '\n' || c = '\r' || c = '\x0b' || c = '\x0c'

/-- ASCII model of Python's `\w` class: letters, digits and underscore. -/
def isWordChar (c : Char) : Bool :=
  c.isAlphanum || c = '_'

/-- ASCII model of Python's `\d` class. -/
def isDigitChar (c : Char) : Bool :=
  c.isDigit

/-- The `\x7b` character (left curly brace), named to keep literals readable. -/
def lbrace : Char := Char.ofNat 123

/-- The `\x7d` character (right curly brace). -/
def rbrace : Char := Char.ofNat 125

/-- Convert a Lean string literal into the `List Char` model of a Python
string. -/
def pstr (s : String) : List Char := s.data

/-- Decimal digits of a natural number, by structural recursion on a fuel
argument so that the kernel can evaluate it. -/
def natToCharsAux : Nat → Nat → List Char
  | 0, _ => []
  | fuel + 1, n =>
    if n < 10 then [Char.ofNat (48 + n)]
    else natToCharsAux fuel (n / 10) ++ [Char.ofNat (48 + n % 10)]

/-- Model of Python `str(n)` for a nonnegative integer. -/
def natToChars (n : Nat) : List Char := natToCharsAux (n + 1) n

/-- Model of Python `int(s)` on a string of decimal digits. -/
def charsToNat (s : List Char) : Nat :=
  s.foldl (fun a c => a * 10 + (c.toNat - 48)) 0

/-- Model of Python `str.capitalize()`: first character uppercased, the
rest lowercased. -/
def pyCapitalize : List Char → List Char
  | [] => []
  | c :: t => c.toUpper :: t.map Char.toLower

/-- First index at which `sub` occurs as a contiguous run in `s`. -/
def findSub (sub s : List Char) : Option Nat :=
  match s with
  | [] => if sub = [] then some 0 else none
  | _ :: t =>
    if s.take sub.length = sub then some 0
    else (findSub sub t).map (· + 1)

/-- Model of Python's `sub in s` substring test. -/
def containsSub (sub s : List Char) : Bool :=
  (findSub sub s).isSome

theorem findSub_le {sep s : List Char} {i : Nat} (hsep : sep ≠ [])
    (hf : findSub sep s = some i) : i + sep.length ≤ s.length := by
  induction s generalizing i with
  | nil =>
    simp only [findSub] at hf
    split at hf
    · exact absurd (by assumption) hsep
    · cases hf
  | cons c t ih =>
    simp only [findSub] at hf
    split at hf
    · rename_i htake
      cases hf
      have := congrArg List.length htake
      simp only [List.length_take] at this
      omega
    · cases hcall : findSub sep t with
      | none => rw [hcall] at hf; cases hf
      | some j =>
        rw [hcall] at hf
        simp only [Option.map_some'] at hf
        cases hf
        have := ih hcall
        simp only [List.length_cons]
        omega

/-- Model of Python `str.split(sep)` for a non-empty separator, by
structural recursion on a fuel argument (each split step consumes at least
one character, so `s.length` fuel is always enough). -/
def splitOnSubAux (sep : List Char) : Nat → List Char → List (List Char)
  | 0, s => [s]
  | fuel + 1, s =>
    if sep = [] then [s]
    else
      match findSub sep s with
      | none => [s]
      | some i => s.take i :: splitOnSubAux sep fuel (s.drop (i + sep.length))

def splitOnSub (sep : List Char) (s : List Char) : List (List Char) :=
  splitOnSubAux sep s.length s

/-- Model of Python `str.rstrip()` (default whitespace). -/
def pyRstrip (s : List Char) : List Char :=
  (s.reverse.dropWhile isPySpace).reverse

/-- Model of Python `str.strip()` (default whitespace). -/
def pyStrip (s : List Char) : List Char :=
  pyRstrip (s.dropWhile isPySpace)

/-- Model of Python `str.replace(old, new)` for a non-empty `old`,
via split-and-join, which has the same leftmost non-overlapping
semantics. -/
def pyReplace (old new s : List Char) : List Char :=
  (splitOnSub old s).intersperse new |>.flatten

/-- Index of the last occurrence of character `c` in `s`
(Python `str.rfind` for a single character), or `none`. -/
def rfindChar (c : Char) (s : List Char) : Option Nat :=
  match s.reverse.indexOf? c with
  | none => none
  | some i => some (s.length - 1 - i)

end DSTFish

/-! ## Event bus (`src/core/events/bus.py`) -/

namespace DSTFish.EventBus

/-- The event types of `core/events/bus.py` (`EventType`). -/
inductive EventType
  | SHARD_REFRESH
  | SERVER_STATUS_UPDATE
  | CHAT_MESSAGE
  | LOG_UPDATE
  | MOD_LIST_UPDATE
  | BACKGROUND_TASK_START
  | BACKGROUND_TASK_END
  | USER_ACTION
  | EXIT_REQUESTED
deriving DecidableEq, Repr

/-- An application event (`Event` dataclass); the payload is opaque. -/
structure Event (α : Type) where
  type : EventType
  data : Option α := none

/-- A subscriber callback.  Its body either returns normally or raises,
which the embedding records as an `Except` result; `String` is the
exception text. -/
def Callback (α : Type) : Type := Event α → Except String Unit

/-- The subscriber table: for each event type, the list of callbacks in
subscription order (`EventBus._subscribers`). -/
def Subscribers (α : Type) : Type := EventType → List (Callback α)

/-- `EventBus.subscribe`: append the callback to the list for its type. -/
def subscribe {α} (subs : Subscribers α) (t : EventType) (cb : Callback α) :
    Subscribers α :=
  fun t' => if t' = t then subs t' ++ [cb] else subs t'

/-- One iteration of `EventBus.publish`'s `for` loop: run each callback
under `try`/`except`, recording `none` for a normal return and the logged
message for a caught exception, and always continuing with the rest. -/
def runCallbacks {α} (e : Event α) : List (Callback α) → List (Option String)
  | [] => []
  | cb :: rest =>
    (match cb e with
     | .ok _ => none
     | .error msg => some msg) :: runCallbacks e rest

/-- `EventBus.publish`: snapshot the subscriber list for the event's type
and invoke every callback in order.  The function is total: no callback
exception escapes. -/
def publish {α} (subs : Subscribers α) (e : Event α) : List (Option String) :=
  runCallbacks e (subs e.type)

theorem runCallbacks_eq_map {α} (e : Event α) (cbs : List (Callback α)) :
    runCallbacks e cbs =
      cbs.map (fun cb => match cb e with | .ok _ => none | .error m => some m) := by
  induction cbs with
  | nil => rfl
  | cons cb rest ih => simp [runCallbacks, ih]

end DSTFish.EventBus

/-- **C7.** For every event and every subscriber table, `publish` invokes
exactly the subscribers registered for the event's type, one result per
subscriber, in subscription (FIFO) order — a callback that raises is
recorded as a logged message and every remaining subscriber is still
invoked — and `publish` itself is a total function, so it never propagates
a callback's exception.  Moreover `subscribe` appends at the tail, so the
invocation order is the subscription order. -/
theorem C7_publish_isolates_callbacks {α : Type} (subs : DSTFish.EventBus.Subscribers α)
    (e : DSTFish.EventBus.Event α) :
    DSTFish.EventBus.publish subs e =
      (subs e.type).map
        (fun cb => match cb e with | .ok _ => none | .error m => some m) ∧
    (DSTFish.EventBus.publish subs e).length = (subs e.type).length ∧
    ∀ (t : DSTFish.EventBus.EventType) (cb : DSTFish.EventBus.Callback α),
      (DSTFish.EventBus.subscribe subs t cb) t = subs t ++ [cb] := by
  refine ⟨DSTFish.EventBus.runCallbacks_eq_map e (subs e.type), ?_, ?_⟩
  · rw [DSTFish.EventBus.publish, DSTFish.EventBus.runCallbacks_eq_map]
    simp
  · intro t cb
    simp [DSTFish.EventBus.subscribe]

/-! ## Chat manager (`src/features/chat/chat_manager.py`) -/

namespace DSTFish.ChatManager

/-- Abstract environment for `ChatManager.send_command`: whether the FIFO
file for a shard exists, and what the blocking `subprocess.run` of the
shell redirection would do if it were attempted. -/
inductive SubprocessOutcome
  | ok
  | timeout
  | calledProcessError (msg : String)
deriving DecidableEq, Repr

structure CommandEnv where
  fifoExists : String → Bool
  outcome : String → String → SubprocessOutcome

/-- Result of one `ChatManager` call: the `(bool, str)` return value plus
the observable effects — which commands were handed to `send_command` and
which writes reached a FIFO. -/
structure SendResult where
  ok : Bool
  msg : String
  commandsSent : List (String × String)
  fifoWrites : List (String × String)
deriving Repr

/-- `ChatManager.send_command`: fail with a message if the shard's FIFO is
missing, otherwise write the command to the FIFO via the shell, converting
a timeout or a non-zero exit into a `(False, reason)` result. -/
def send_command (env : CommandEnv) (shard command : String) : SendResult :=
  if !env.fifoExists shard then
    { ok := false
      msg := s!"FIFO for shard {shard} not found"
      commandsSent := [(shard, command)]
      fifoWrites := [] }
  else
    match env.outcome shard command with
    | .ok =>
      { ok := true, msg := "Command sent successfully."
        commandsSent := [(shard, command)]
        fifoWrites := [(shard, command)] }
    | .timeout =>
      { ok := false, msg := s!"Timeout sending command to FIFO"
        commandsSent := [(shard, command)]
        fifoWrites := [] }
    | .calledProcessError m =>
      { ok := false, msg := s!"Failed to send command to FIFO: {m}"
        commandsSent := [(shard, command)]
        fifoWrites := [] }

/-- `ChatManager.send_chat_message`: reject any shard other than
`"Master"` before doing anything, otherwise wrap the text in
`c_announce(...)` and delegate to `send_command`. -/
def send_chat_message (env : CommandEnv) (shard message : String) : SendResult :=
  if shard ≠ "Master" then
    { ok := false
      msg := "Chat messages can only be sent to the 'Master' shard."
      commandsSent := []
      fifoWrites := [] }
  else
    send_command env shard s!"c_announce(\"{message}\")"

/-- `ChatManager.send_system_message`: same guard, delegating with a
`TheNet:SystemMessage(...)` command. -/
def send_system_message (env : CommandEnv) (shard message : String) : SendResult :=
  if shard ≠ "Master" then
    { ok := false
      msg := "Chat messages can only be sent to the 'Master' shard."
      commandsSent := []
      fifoWrites := [] }
  else
    send_command env shard s!"TheNet:SystemMessage(\"{message}\")"

end DSTFish.ChatManager

/-- **C6.** For every shard name other than `"Master"` and every message,
both `send_chat_message` and `send_system_message` return `False` together
with the descriptive reason string, and the send is never attempted:
`send_command` receives nothing and no FIFO is written — for every
environment (so in particular independently of whether the FIFO exists or
what the subprocess would do). -/
theorem C6_non_master_chat_rejected
    (env : DSTFish.ChatManager.CommandEnv) (shard message : String)
    (h : shard ≠ "Master") :
    DSTFish.ChatManager.send_chat_message env shard message =
      { ok := false
        msg := "Chat messages can only be sent to the 'Master' shard."
        commandsSent := []
        fifoWrites := [] } ∧
    DSTFish.ChatManager.send_system_message env shard message =
      { ok := false
        msg := "Chat messages can only be sent to the 'Master' shard."
        commandsSent := []
        fifoWrites := [] } := by
  constructor
  · simp [DSTFish.ChatManager.send_chat_message, h]
  · simp [DSTFish.ChatManager.send_system_message, h]

/-- Witness for C6 at the concrete shard `"Caves"`. -/
theorem C6_non_master_chat_rejected_witness :
    ("Caves" ≠ "Master") ∧
    (DSTFish.ChatManager.send_chat_message
        { fifoExists := fun _ => true, outcome := fun _ _ => .ok }
        "Caves" "hello").ok = false := by
  refine ⟨by decide, ?_⟩
  have h := C6_non_master_chat_rejected
    { fifoExists := fun _ => true, outcome := fun _ _ => .ok }
    "Caves" "hello" (by decide)
  rw [h.1]

/-! ## Application state and UI control actions
(`src/core/state/app_state.py`, `src/core/background/coordinator.py`,
`src/ui/app.py`) -/

namespace DSTFish.AppStateModel

/-- `core/state/app_state.py` `UIState` dataclass, with exactly the fields
it declares.  Dictionary-valued fields are association lists. -/
structure UIState where
  selected_indices : List (String × Int) :=
    [("shard", 0), ("mod", 0), ("action", 0), ("global_action", -1)]
  viewer_states : List (String × Bool) :=
    [("log", false), ("mods", false), ("discord_logs", false)]
  log_content : List (List Char) := []
  log_scroll_pos : Nat := 0
  mods : List String := []
  cached_chat_logs : List (List Char) := []
  seen_chat_messages : List (List Char) := []

/-- The attribute names a `UIState` instance actually has (its dataclass
fields); Python resolves `ui_state.<name>` by this set and raises
`AttributeError` for anything else. -/
def uiStateAttrNames : List String :=
  ["selected_indices", "viewer_states", "log_content", "log_scroll_pos",
   "mods", "cached_chat_logs", "seen_chat_messages"]

/-- `core/state/app_state.py` `AppState` dataclass (the lock and float
timing fields are irrelevant to control flow and kept as plain data). -/
structure AppState where
  ui_state : UIState := {}
  is_working : Bool := false
  need_redraw : Bool := true
  master_offline_count : Nat := 0

/-- `StateManager.set_working`: sets the `is_working` field of the
`AppState` (not of the `UIState`). -/
def set_working (s : AppState) (b : Bool) : AppState :=
  { s with is_working := b }

/-- The in-flight marking performed by
`BackgroundCoordinator.run_in_background`'s worker around the task body:
`set_working(True)` on entry and `set_working(False)` in the `finally`
block. -/
def run_in_background_enter (s : AppState) : AppState := set_working s true

def run_in_background_exit (s : AppState) : AppState := set_working s false

/-- The control actions `_execute_action`/`_toggle_enable` can dispatch to
`run_in_background`. -/
inductive ControlAction
  | start | stop | restart | enable | disable
deriving DecidableEq, Repr

/-- Reading the Python attribute `state.ui_state.is_working`
(`ui/app.py` line 192 and line 267): succeeds only when `UIState` has a
field of that name. -/
def readUiWorkingFlag (s : AppState) : Except String Bool :=
  if "is_working" ∈ uiStateAttrNames then
    .ok false
  else
    .error "AttributeError: 'UIState' object has no attribute 'is_working'"

/-- `TUIApp._execute_action` up to its dispatch: evaluate the guard
`if state.ui_state.is_working: return`, then (were the guard passed)
dispatch the selected action.  The returned list is the sequence of
control actions handed to `run_in_background`. -/
def executeAction (s : AppState) (selectedAction : ControlAction) :
    Except String (List ControlAction) := do
  let working ← readUiWorkingFlag s
  if working then
    return []
  return [selectedAction]

/-- `TUIApp._toggle_enable` up to its dispatch, with the same guard. -/
def toggleEnable (s : AppState) (shardEnabled : Bool) :
    Except String (List ControlAction) := do
  let working ← readUiWorkingFlag s
  if working then
    return []
  return [if shardEnabled then .disable else .enable]

end DSTFish.AppStateModel

/-- **C8.** The claim says that while `run_in_background` has the single
global busy flag set, `_execute_action` and `_toggle_enable` return
without dispatching a control action.  On the code this fails: the flag
set by `run_in_background` (via `StateManager.set_working`) is
`AppState.is_working`, while both guards read `state.ui_state.is_working`
— and `UIState` declares no `is_working` field, so the guard raises
`AttributeError` instead of returning.  This theorem evaluates the code at
the failing situation: for every application state — in particular one
where the busy flag was just set by `run_in_background` — both handlers
raise instead of returning without dispatch. -/
theorem C8_ui_busy_guard_reads_missing_attribute
    (s : DSTFish.AppStateModel.AppState)
    (a : DSTFish.AppStateModel.ControlAction) (en : Bool) :
    (DSTFish.AppStateModel.set_working s true).is_working = true ∧
    DSTFish.AppStateModel.executeAction
        (DSTFish.AppStateModel.run_in_background_enter s) a =
      .error "AttributeError: 'UIState' object has no attribute 'is_working'" ∧
    DSTFish.AppStateModel.toggleEnable
        (DSTFish.AppStateModel.run_in_background_enter s) en =
      .error "AttributeError: 'UIState' object has no attribute 'is_working'" := by
  exact ⟨rfl, rfl, rfl⟩

/-- Witness for C8 at the default application state. -/
theorem C8_ui_busy_guard_reads_missing_attribute_witness :
    DSTFish.AppStateModel.executeAction
        (DSTFish.AppStateModel.run_in_background_enter {})
        DSTFish.AppStateModel.ControlAction.start =
      .error "AttributeError: 'UIState' object has no attribute 'is_working'" :=
  (C8_ui_busy_guard_reads_missing_attribute {} .start false).2.1

/-! ## Mod manager (`src/features/mods/mod_manager.py`)

`toggle_mod` rewrites `modoverrides.lua` with
`re.subn(r'(\["ID"\]\s*=\s*\{[^}]*enabled\s*=\s*)(true|false)', r'\1VAL', content)`.
The pattern is compiled by hand below: a literal head `["ID"]`, optional
whitespace around `=`, a literal `{`, a greedy `[^}]*` that therefore
selects the *last* position before the first `}` at which
`enabled\s*=\s*(true|false)` matches, and the captured boolean value. -/

namespace DSTFish.ModManager

open DSTFish

/-- The text of a Lua boolean, as the regex alternative `(true|false)`
captures it. -/
def boolChars : Bool → List Char
  | true => pstr "true"
  | false => pstr "false"

/-- Length of the captured value text. -/
def vlen (b : Bool) : Nat := (boolChars b).length

/-- Match a literal character sequence at the head of `s`, returning the
rest. -/
def stripLit : List Char → List Char → Option (List Char)
  | [], s => some s
  | _ :: _, [] => none
  | l :: lt, c :: t => if c = l then stripLit lt t else none

/-- Maximal run of `\s` characters at the head of `s` (greedy `\s*`
followed by a non-space literal never backtracks). -/
def spaceRun : List Char → Nat × List Char
  | [] => (0, [])
  | c :: t =>
    if isPySpace c then
      let (n, r) := spaceRun t
      (n + 1, r)
    else (0, c :: t)

/-- Match `enabled\s*=\s*(true|false)` at the head of `s`.  Returns the
length of the part before the value (`enabled` plus spacing plus `=` plus
spacing) and the captured boolean. -/
def enabledAt (s : List Char) : Option (Nat × Bool) :=
  match stripLit (pstr "enabled") s with
  | none => none
  | some r1 =>
    let (n1, r2) := spaceRun r1
    match r2 with
    | '=' :: r3 =>
      let (n2, r4) := spaceRun r3
      match stripLit (pstr "true") r4 with
      | some _ => some (7 + n1 + 1 + n2, true)
      | none =>
        match stripLit (pstr "false") r4 with
        | some _ => some (7 + n1 + 1 + n2, false)
        | none => none
    | _ => none

/-- The greedy `[^}]*enabled\s*=\s*(true|false)`: among the positions of
`s` that lie strictly before the first `}`, the *last* one at which
`enabledAt` succeeds, together with that success. -/
def lastEnabled : List Char → Option (Nat × Nat × Bool)
  | [] => none
  | c :: t =>
    if c = rbrace then none
    else
      match lastEnabled t with
      | some (q, l, v) => some (q + 1, l, v)
      | none => (enabledAt (c :: t)).map (fun (l, v) => (0, l, v))

/-- Match the head `\["ID"\]\s*=\s*\{` of the toggle pattern at the start
of `s`; returns the number of consumed characters and the rest. -/
def parseHead (W s : List Char) : Option (Nat × List Char) :=
  match stripLit ('[' :: '"' :: (W ++ ['"', ']'])) s with
  | none => none
  | some r1 =>
    let (n1, r2) := spaceRun r1
    match r2 with
    | '=' :: r3 =>
      let (n2, r4) := spaceRun r3
      match r4 with
      | c :: r5 =>
        if c = lbrace then some (4 + W.length + n1 + 1 + n2 + 1, r5) else none
      | [] => none
    | _ => none

/-- Attempt the whole toggle pattern at the start of `s`.  On success
returns `(p, v)`: group 1 has length `p` and group 2 captured `v`; the
whole match has length `p + vlen v`. -/
def matchAt (W s : List Char) : Option (Nat × Bool) :=
  match parseHead W s with
  | none => none
  | some (h, rest) =>
    match lastEnabled rest with
    | none => none
    | some (q, l, v) => some (h + q + l, v)

/-- `re.subn` of the toggle pattern with replacement `\1NEW`: scan left to
right, at each position attempt the pattern; on a match keep group 1,
write the new value, and continue after the match.  Also returns the list
of captured original values (whose length is `subn`'s count). -/
def toggleScanAux (W : List Char) (e : Bool) : Nat → List Char → List Char × List Bool
  | 0, _ => ([], [])
  | _ + 1, [] => ([], [])
  | fuel + 1, c :: t =>
    match matchAt W (c :: t) with
    | none =>
      let (r, vs) := toggleScanAux W e fuel t
      (c :: r, vs)
    | some (p, v) =>
      let (r, vs) := toggleScanAux W e fuel ((c :: t).drop (p + vlen v))
      ((c :: t).take p ++ boolChars e ++ r, v :: vs)

def toggleScan (W : List Char) (e : Bool) (s : List Char) : List Char × List Bool :=
  toggleScanAux W e s.length s

/-- The filesystem state a mod-manager method sees for one shard's
`modoverrides.lua`: whether the parent directory chain exists and the file
content (`none` when absent). -/
structure ShardFS where
  parentExists : Bool := true
  file : Option (List Char) := none
deriving DecidableEq, Repr

/-- The default file `list_mods` and `_add_to_mod_overrides` create:
`"return {\n}\n"`. -/
def defaultOverrides : List Char := pstr "return \x7b\n\x7d\n"

/-- `ModManager.toggle_mod`: `False` if the file is absent; otherwise run
the substitution and write the result only when at least one replacement
happened. -/
def toggle_mod (W : List Char) (enabled : Bool) (fs : ShardFS) :
    Bool × ShardFS :=
  match fs.file with
  | none => (false, fs)
  | some content =>
    let (newContent, values) := toggleScan W enabled content
    if 0 < values.length then (true, { fs with file := some newContent })
    else (false, fs)

/-- Maximal run of `\d` characters. -/
def digitRun : List Char → List Char × List Char
  | [] => ([], [])
  | c :: t =>
    if isDigitChar c then
      let (d, r) := digitRun t
      (c :: d, r)
    else ([], c :: t)

/-- The `[^}]*` of `list_mods`'s block pattern followed by the required
literal `}`: everything before the first `}`, failing when no `}`
follows. -/
def bracelessRun : List Char → Option (List Char × List Char)
  | [] => none
  | c :: t =>
    if c = rbrace then some ([], t)
    else (bracelessRun t).map (fun (r, rest) => (c :: r, rest))

/-- `list_mods`'s pattern `\["(workshop-\d+)"\]\s*=\s*\{([^}]*)\}` tried
at the start of `s`: returns the captured id, the captured block body and
the length of the whole match. -/
def modBlockMatchAt (s : List Char) : Option (List Char × List Char × Nat) :=
  match stripLit (pstr "[\"workshop-") s with
  | none => none
  | some r1 =>
    let (ds, r2) := digitRun r1
    if ds = [] then none
    else
      match r2 with
      | '"' :: ']' :: r3 =>
        let (n1, r4) := spaceRun r3
        match r4 with
        | '=' :: r5 =>
          let (n2, r6) := spaceRun r5
          match r6 with
          | c :: r7 =>
            if c = lbrace then
              match bracelessRun r7 with
              | none => none
              | some (blk, _) =>
                some (pstr "workshop-" ++ ds, blk,
                  11 + ds.length + 2 + n1 + 1 + n2 + 1 + blk.length + 1)
            else none
          | [] => none
        | _ => none
      | _ => none

/-- `re.finditer` of the block pattern: leftmost non-overlapping matches
(fuel-based, `s.length` fuel suffices since every match is non-empty). -/
def modBlocksAux : Nat → List Char → List (List Char × List Char)
  | 0, _ => []
  | _ + 1, [] => []
  | fuel + 1, c :: t =>
    match modBlockMatchAt (c :: t) with
    | none => modBlocksAux fuel t
    | some (id, blk, len) => (id, blk) :: modBlocksAux fuel ((c :: t).drop len)

def modBlocks (s : List Char) : List (List Char × List Char) :=
  modBlocksAux s.length s

/-- `re.search(r"enabled\s*=\s*(true|false)", block)`: the leftmost
occurrence, or `none`. -/
def searchEnabled : List Char → Option Bool
  | [] => none
  | c :: t =>
    match enabledAt (c :: t) with
    | some (_, v) => some v
    | none => searchEnabled t

/-- One entry of `list_mods`'s result. -/
structure ModEntry where
  id : List Char
  enabled : Bool
  name : List Char
deriving DecidableEq, Repr

/-- `ModManager.list_mods`: when the override file is missing, create the
parent directories and the default file and return the empty list;
otherwise parse the block pattern, defaulting `enabled` to `True` when the
block has no `enabled` assignment.  `nameOf` stands for
`get_mod_name` (which reads a different file). -/
def list_mods (nameOf : List Char → List Char) (fs : ShardFS) :
    List ModEntry × ShardFS :=
  match fs.file with
  | none => ([], { parentExists := true, file := some defaultOverrides })
  | some content =>
    ((modBlocks content).map fun g =>
      { id := g.1, enabled := (searchEnabled g.2).getD true, name := nameOf g.1 },
     fs)

end DSTFish.ModManager

namespace DSTFish.ModManager

/-- Filesystem state for `dedicated_server_mods_setup.lua`: whether its
parent directory exists and the file content. -/
structure SetupFS where
  dirExists : Bool := true
  file : Option (List Char) := none
deriving DecidableEq, Repr

/-- `ModManager._add_to_mods_setup`: fail when the mods directory is
missing, do nothing when the `ServerModSetup("\<id\>")` entry is already
present, otherwise append it (preceded by a newline when the existing
content does not end in one). -/
def add_to_mods_setup (W : List Char) (fs : SetupFS) : Bool × SetupFS :=
  let numeric := pyReplace (pstr "workshop-") [] W
  if !fs.dirExists then (false, fs)
  else
    let content := fs.file.getD []
    let entry := pstr "ServerModSetup(\"" ++ numeric ++ pstr "\")"
    if containsSub entry content then (true, fs)
    else
      let pad := if content ≠ [] && content.getLast? ≠ some '\n' then ['\n'] else []
      (true, { fs with file := some (content ++ pad ++ entry ++ ['\n']) })

/-- The entry text `_add_to_mod_overrides` splices in front of the final
closing brace. -/
def modOverridesEntry (W : List Char) : List Char :=
  pstr "  [\"" ++ W ++ pstr "\"]=\x7b configuration_options=\x7b  \x7d, enabled=true \x7d"

/-- `ModManager._add_to_mod_overrides`: create the default file when
missing; skip when `["ID"]` already occurs; otherwise splice the new entry
before the last `\x7d` of the file, separated by `,\n` unless the part
before that brace is exactly `return \x7b` up to whitespace. -/
def add_to_mod_overrides (W : List Char) (fs : ShardFS) : Bool × ShardFS :=
  let fs1 : ShardFS :=
    match fs.file with
    | none => { parentExists := true, file := some defaultOverrides }
    | some _ => fs
  let content := fs1.file.getD defaultOverrides
  if containsSub ('[' :: '"' :: (W ++ ['"', ']'])) content then (true, fs1)
  else
    match rfindChar rbrace content with
    | none => (false, fs1)
    | some idx =>
      let pre := content.take idx
      let sep := if pyStrip pre ≠ pstr "return \x7b" then pstr ",\n" else pstr "\n"
      let newContent :=
        pyRstrip pre ++ sep ++ modOverridesEntry W ++ ['\n'] ++ content.drop idx
      (true, { fs1 with file := some newContent })

/-- `ModManager.add_mod`: update the mods-setup file first and, only when
that succeeded, the shard's override file. -/
def add_mod (W : List Char) (sfs : SetupFS) (ofs : ShardFS) :
    Bool × SetupFS × ShardFS :=
  let r1 := add_to_mods_setup W sfs
  if !r1.1 then (false, r1.2, ofs)
  else
    let r2 := add_to_mod_overrides W ofs
    (r2.1, r1.2, r2.2)

end DSTFish.ModManager

/-- **C10.** For every shard, when the shard's `modoverrides.lua` does not
exist, `list_mods` neither fails nor merely reports absence: it creates
the parent directories, writes the default file with exact content
`"return \x7b\n\x7d\n"`, and returns the empty list. -/
theorem C10_list_mods_creates_default_file
    (nameOf : List Char → List Char) (fs : DSTFish.ModManager.ShardFS)
    (h : fs.file = none) :
    DSTFish.ModManager.list_mods nameOf fs =
      ([], { parentExists := true,
             file := some (DSTFish.pstr "return \x7b\n\x7d\n") }) := by
  unfold DSTFish.ModManager.list_mods
  rw [h]
  rfl

/-- Witness for C10: a shard state with no file and no parent directory. -/
theorem C10_list_mods_creates_default_file_witness :
    (({ parentExists := false, file := none } :
        DSTFish.ModManager.ShardFS).file = none) ∧
    DSTFish.ModManager.list_mods id { parentExists := false, file := none } =
      ([], { parentExists := true,
             file := some (DSTFish.pstr "return \x7b\n\x7d\n") }) :=
  ⟨rfl, C10_list_mods_creates_default_file id _ rfl⟩

/-- **C9.** For every shard state and workshop id: when the override file
exists but the toggle pattern matches zero times in its content,
`toggle_mod` returns `False` and performs no write (the filesystem state
is unchanged byte for byte); when the file does not exist, `toggle_mod`
returns `False` without creating it. -/
theorem C9_toggle_mod_no_match_no_write
    (W : List Char) (e : Bool) (fs : DSTFish.ModManager.ShardFS) :
    (∀ content, fs.file = some content →
      (DSTFish.ModManager.toggleScan W e content).2 = [] →
      DSTFish.ModManager.toggle_mod W e fs = (false, fs)) ∧
    (fs.file = none → DSTFish.ModManager.toggle_mod W e fs = (false, fs)) := by
  constructor
  · intro content hfile hcount
    unfold DSTFish.ModManager.toggle_mod
    rw [hfile]
    simp [hcount]
  · intro hfile
    unfold DSTFish.ModManager.toggle_mod
    rw [hfile]

/-- Witness for C9 on the default override file, which contains no block
for `workshop-123`, and on an absent file. -/
theorem C9_toggle_mod_no_match_no_write_witness :
    ((({ file := some (DSTFish.pstr "return \x7b\n\x7d\n") } :
         DSTFish.ModManager.ShardFS)).file =
       some (DSTFish.pstr "return \x7b\n\x7d\n")) ∧
    ((DSTFish.ModManager.toggleScan (DSTFish.pstr "workshop-123") false
        (DSTFish.pstr "return \x7b\n\x7d\n")).2 = []) ∧
    DSTFish.ModManager.toggle_mod (DSTFish.pstr "workshop-123") false
        { file := some (DSTFish.pstr "return \x7b\n\x7d\n") } =
      (false, { file := some (DSTFish.pstr "return \x7b\n\x7d\n") }) ∧
    DSTFish.ModManager.toggle_mod (DSTFish.pstr "workshop-123") false
        { file := none } =
      (false, { file := none }) := by
  refine ⟨rfl, by decide, ?_, ?_⟩
  · exact (C9_toggle_mod_no_match_no_write (DSTFish.pstr "workshop-123") false
      { file := some (DSTFish.pstr "return \x7b\n\x7d\n") }).1 _ rfl (by decide)
  · exact (C9_toggle_mod_no_match_no_write (DSTFish.pstr "workshop-123") false
      { file := none }).2 rfl

/-- **C3.** The claim (and the spec's example) says: starting from
`"return \x7b\n\x7d\n"`, after `add_mod("workshop-123")` the file contains
a `["workshop-123"]` block with `enabled=true` — which holds — and a
subsequent `toggle_mod("workshop-123", false)` flips that block's
`enabled` value to `false` leaving every other byte unchanged — which the
code does not do.  `add_mod` writes `configuration_options=\x7b  \x7d`
*before* `enabled=true`, and `toggle_mod`'s pattern
`\["ID"\]\s*=\s*\{[^}]*enabled\s*=\s*` cannot cross the `\x7d` of that
inner table, so the substitution count is zero, `toggle_mod` returns
`False` and the file is left with `enabled=true`.  This theorem evaluates
the code on exactly the claim's scenario. -/
theorem C3_add_mod_then_toggle_mod_fails_to_flip :
    DSTFish.ModManager.add_mod (DSTFish.pstr "workshop-123") {}
        { file := some (DSTFish.pstr "return \x7b\n\x7d\n") } =
      (true, { dirExists := true,
               file := some (DSTFish.pstr "ServerModSetup(\"123\")\n") },
             { parentExists := true,
               file := some (DSTFish.pstr
  "return \x7b\n  [\"workshop-123\"]=\x7b configuration_options=\x7b  \x7d, enabled=true \x7d\n\x7d\n") }) ∧
    DSTFish.containsSub
      (DSTFish.pstr "[\"workshop-123\"]=\x7b configuration_options=\x7b  \x7d, enabled=true \x7d")
      (DSTFish.pstr
  "return \x7b\n  [\"workshop-123\"]=\x7b configuration_options=\x7b  \x7d, enabled=true \x7d\n\x7d\n") = true ∧
    DSTFish.ModManager.toggle_mod (DSTFish.pstr "workshop-123") false
        { parentExists := true,
          file := some (DSTFish.pstr
  "return \x7b\n  [\"workshop-123\"]=\x7b configuration_options=\x7b  \x7d, enabled=true \x7d\n\x7d\n") } =
      (false,
       { parentExists := true,
         file := some (DSTFish.pstr
  "return \x7b\n  [\"workshop-123\"]=\x7b configuration_options=\x7b  \x7d, enabled=true \x7d\n\x7d\n") }) := by
  refine ⟨by decide, by decide, by decide⟩

/-! ## Status manager (`src/features/status/status_manager.py`)

`get_server_status` reads the last 32KB of each shard's `server_log.txt`
and applies four regexes.  The claims quantify over that scanned window,
so the window's content is the input of the model.  Each pattern is
compiled by hand; greedy and lazy quantifier decisions that the concrete
pattern forces are resolved as Python's backtracking engine resolves
them. -/

namespace DSTFish.StatusManager

open DSTFish
open DSTFish.ModManager in
section
-- matchers reuse stripLit, spaceRun, digitRun from the mod manager embedding

/-- Maximal run of `\w` characters. -/
def wordRun : List Char → List Char × List Char
  | [] => ([], [])
  | c :: t =>
    if isWordChar c then
      let (d, r) := wordRun t
      (c :: d, r)
    else ([], c :: t)

/-- Generic `re.findall` scan: try `step` at every position, left to
right; on a match emit its payload and continue after it (fuel-based;
every pattern below consumes at least one character on success). -/
def scanAll {α : Type} (step : List Char → Option (α × List Char)) :
    Nat → List Char → List α
  | 0, _ => []
  | _ + 1, [] => []
  | fuel + 1, c :: t =>
    match step (c :: t) with
    | none => scanAll step fuel t
    | some (a, rest) => a :: scanAll step fuel rest

/-- The part of the season pattern after the captured digits:
`\s*(?:,\s*Remaining:|\s*->)\s*(\d+)\s*days?`.  Returns the third group
and the rest after the match. -/
def seasonTail (s : List Char) : Option (List Char × List Char) :=
  let (_, r1) := spaceRun s
  let sep :=
    match stripLit [','] r1 with
    | some ra =>
      let (_, rb) := spaceRun ra
      stripLit (pstr "Remaining:") rb
    | none => stripLit (pstr "->") r1
  match sep with
  | none => none
  | some r2 =>
    let (_, r3) := spaceRun r2
    let (ds, r4) := digitRun r3
    if ds = [] then none
    else
      let (_, r5) := spaceRun r4
      match stripLit (pstr "day") r5 with
      | none => none
      | some r6 =>
        match r6 with
        | 's' :: rr => some (ds, rr)
        | _ => some (ds, r6)

/-- The backtracking split of `(\w+)\s*(\d+)` over a maximal `\w` run:
`\w+` first tries the whole run of length `k` and gives characters back
one at a time; a split succeeds when what follows the first group is
(optional space then) a non-empty digit run followed by `seasonTail`. -/
def seasonSplit (run r2 : List Char) : Nat → Option ((List Char × List Char × List Char) × List Char)
  | 0 => none
  | j + 1 =>
    let g1 := run.take (j + 1)
    let after := run.drop (j + 1) ++ r2
    let (_, a1) := spaceRun after
    let (ds, a2) := digitRun a1
    match if ds = [] then none else seasonTail a2 with
    | some (rem, rest) => some ((g1, ds, rem), rest)
    | none => seasonSplit run r2 j

/-- Season pattern after the alternation prefix. -/
def seasonAfterSep (s : List Char) : Option ((List Char × List Char × List Char) × List Char) :=
  let (_, r1) := spaceRun s
  let (run, r2) := wordRun r1
  if run = [] then none else seasonSplit run r2 run.length

/-- One attempt of the season pattern
`(?:\[Season\] Season:\s*|:\s*)(\w+)\s*(\d+)\s*(?:,\s*Remaining:|\s*->)\s*(\d+)\s*days?`
at the start of `s`: groups `(name, elapsed, remaining)` and the rest. -/
def seasonStep (s : List Char) : Option ((List Char × List Char × List Char) × List Char) :=
  match stripLit (pstr "[Season] Season:") s with
  | some r => seasonAfterSep r
  | none =>
    match stripLit [':'] s with
    | some r => seasonAfterSep r
    | none => none

/-- `re.findall` of the season pattern over the scanned window. -/
def seasonFindall (s : List Char) : List (List Char × List Char × List Char) :=
  scanAll seasonStep s.length s

/-- One attempt of the day pattern
`(?:Current day:|\[World State\] day:)\s*(\d+)`. -/
def dayStep (s : List Char) : Option (List Char × List Char) :=
  let afterSep :=
    match stripLit (pstr "Current day:") s with
    | some r => some r
    | none => stripLit (pstr "[World State] day:") s
  match afterSep with
  | none => none
  | some r =>
    let (_, r1) := spaceRun r
    let (ds, r2) := digitRun r1
    if ds = [] then none else some (ds, r2)

def dayFindall (s : List Char) : List (List Char) :=
  scanAll dayStep s.length s

/-- One attempt of the phase pattern
`(?:Current phase:|\[World State\] phase:)\s*(\w+)`. -/
def phaseStep (s : List Char) : Option (List Char × List Char) :=
  let afterSep :=
    match stripLit (pstr "Current phase:") s with
    | some r => some r
    | none => stripLit (pstr "[World State] phase:") s
  match afterSep with
  | none => none
  | some r =>
    let (_, r1) := spaceRun r
    let (ws, r2) := wordRun r1
    if ws = [] then none else some (ws, r2)

def phaseFindall (s : List Char) : List (List Char) :=
  scanAll phaseStep s.length s

/-- Maximal run of `[\w-]` characters (the `KU_[\w-]+` id class). -/
def kuRun : List Char → List Char × List Char
  | [] => ([], [])
  | c :: t =>
    if isWordChar c || c = '-' then
      let (d, r) := kuRun t
      (c :: d, r)
    else ([], c :: t)

/-- The lazy `(.*?)\s+<` of the player pattern: at every offset first try
a maximal space run followed by `<` (forced, since `<` is not a space),
otherwise let `.` consume one non-newline character.  Returns the second
group and the rest after `<` (fuel-based, one unit per consumed
character). -/
def lazyThenSpacesLtAux : Nat → List Char → Option (List Char × List Char)
  | 0, _ => none
  | fuel + 1, s =>
    let (m, r) := ModManager.spaceRun s
    match if 0 < m then (match r with | '<' :: rr => some rr | _ => none) else none with
    | some rr => some ([], rr)
    | none =>
      match s with
      | [] => none
      | c :: t =>
        if c = '\n' then none
        else (lazyThenSpacesLtAux fuel t).map (fun g => (c :: g.1, g.2))

def lazyThenSpacesLt (s : List Char) : Option (List Char × List Char) :=
  lazyThenSpacesLtAux s.length s

/-- The lazy `(.*?)>`: consume non-newline characters up to the first
`>`. -/
def lazyUntilGt : List Char → Option (List Char × List Char)
  | [] => none
  | c :: t =>
    if c = '>' then some ([], t)
    else if c = '\n' then none
    else (lazyUntilGt t).map (fun g => (c :: g.1, g.2))

/-- The backtracking over the first `\s+` of `\s+(.*?)\s+<`:
`\s+` first takes the whole maximal space run (length `k`), giving back
one space at a time to the lazy group when the rest fails. -/
def playerNameSearch (spaces rest : List Char) : Nat → Option (List Char × List Char)
  | 0 => none
  | n + 1 =>
    match lazyThenSpacesLt (spaces.drop (n + 1) ++ rest) with
    | some g => some g
    | none => playerNameSearch spaces rest n

/-- One attempt of the player-roster pattern
`\[\d+\]\s+\((KU_[\w-]+)\)\s+(.*?)\s+<(.*?)>`:
groups `(ku id, name, character)` and the rest. -/
def playerStep (s : List Char) : Option ((List Char × List Char × List Char) × List Char) :=
  match stripLit ['['] s with
  | none => none
  | some r1 =>
    let (ds, r2) := digitRun r1
    if ds = [] then none
    else
      match stripLit [']'] r2 with
      | none => none
      | some r3 =>
        let (m1, r4) := spaceRun r3
        if m1 = 0 then none
        else
          match stripLit (pstr "(KU_") r4 with
          | none => none
          | some r5 =>
            let (ku, r6) := kuRun r5
            if ku = [] then none
            else
              match stripLit [')'] r6 with
              | none => none
              | some r7 =>
                let (k, r8) := spaceRun r7
                if k = 0 then none
                else
                  match playerNameSearch (List.replicate k ' ') r8 k with
                  | none => none
                  | some (nm, r9) =>
                    match lazyUntilGt r9 with
                    | none => none
                    | some (ch, r10) =>
                      some ((pstr "KU_" ++ ku, nm, ch), r10)

def playerFindall (s : List Char) : List (List Char × List Char × List Char) :=
  scanAll playerStep s.length s

end

end DSTFish.StatusManager

namespace DSTFish.StatusManager

open DSTFish

/-- Python-dict upsert on an insertion-ordered association list: assigning
to an existing key replaces its value in place, a new key is appended. -/
def dictUpsert {V : Type} (k : List Char) (v : V) :
    List (List Char × V) → List (List Char × V)
  | [] => [(k, v)]
  | (k', v') :: t => if k' = k then (k', v) :: t else (k', v') :: dictUpsert k v t

/-- `content.split("All players:")[-1]` (the split is never empty). -/
def lastDumpOf (content : List Char) : List Char :=
  (splitOnSub (pstr "All players:") content).getLastD content

/-- The player matches `get_server_status` uses for one shard: the roster
pattern applied to the text after the last `All players:` marker. -/
def shardPlayerMatches (content : List Char) :
    List (List Char × List Char × List Char) :=
  playerFindall (lastDumpOf content)

/-- The per-shard `players` list: values of the `shard_players` dict
keyed by KU id (deduplication by platform user id, not by name). -/
def shardPlayers (content : List Char) : List (List Char × List Char) :=
  ((shardPlayerMatches content).foldl (fun d g => dictUpsert g.1 g.2 d) []).map (·.2)

/-- The per-shard status dict built by `get_server_status`
(`status_manager.py` lines 89-139): each field defaults to `"Unknown"`,
season/day/days-left come from the last season match, the day is
overridden by the last day match (as-is when the literal
`Current day: N` text occurs in the window, else incremented), the phase
is the last phase match capitalized, and players come from the last
roster dump. -/
structure ShardStatus where
  season : List Char
  day : List Char
  days_left : List Char
  phase : List Char
  players : List (List Char × List Char)
deriving DecidableEq, Repr

def parseShard (content : List Char) : ShardStatus :=
  let s0 : ShardStatus :=
    { season := pstr "Unknown", day := pstr "Unknown",
      days_left := pstr "Unknown", phase := pstr "Unknown", players := [] }
  let s1 :=
    match (seasonFindall content).getLast? with
    | some g =>
      { s0 with season := pyCapitalize g.1,
                day := natToChars (charsToNat g.2.1 + 1),
                days_left := g.2.2 }
    | none => s0
  let s2 :=
    match (dayFindall content).getLast? with
    | some d =>
      { s1 with day :=
          if containsSub (pstr "Current day: " ++ d) content then d
          else natToChars (charsToNat d + 1) }
    | none => s1
  let s3 :=
    match (phaseFindall content).getLast? with
    | some ph => { s2 with phase := pyCapitalize ph }
    | none => s2
  { s3 with players := shardPlayers content }

/-- One entry of the combined `shards` dict: the error placeholder for a
missing log file, or a parsed status. -/
inductive ShardEntry
  | err (msg : List Char)
  | ok (st : ShardStatus)
deriving DecidableEq, Repr

/-- The combined status dict `get_server_status` returns. -/
structure CombinedStatus where
  season : List Char := pstr "Unknown"
  day : List Char := pstr "Unknown"
  days_left : List Char := pstr "Unknown"
  phase : List Char := pstr "Unknown"
  players : List (List Char × List Char) := []
  shards : List (List Char × ShardEntry) := []
deriving DecidableEq, Repr

/-- The loop body of `get_server_status` for one shard: record an error
entry for a missing log, otherwise parse the window, merge the shard's
roster into `all_players`, and copy the four world fields into the
combined status when the shard is `Master`. -/
def statusFold (acc : CombinedStatus × List (List Char × (List Char × List Char)))
    (inp : List Char × Option (List Char)) :
    CombinedStatus × List (List Char × (List Char × List Char)) :=
  let (comb, allP) := acc
  match inp.2 with
  | none =>
    ({ comb with
        shards := comb.shards ++ [(inp.1, .err (pstr "Log file not found"))] },
     allP)
  | some content =>
    let st := parseShard content
    let allP' := (shardPlayerMatches content).foldl
      (fun d g => dictUpsert g.1 g.2 d) allP
    let comb' := { comb with shards := comb.shards ++ [(inp.1, .ok st)] }
    let comb'' :=
      if inp.1 = pstr "Master" then
        { comb' with season := st.season, day := st.day,
                     days_left := st.days_left, phase := st.phase }
      else comb'
    (comb'', allP')

/-- `StatusManager.get_server_status` over the shard list: `inputs` pairs
each shard name with its log window (`none` when the log file is
missing). -/
def getServerStatus (inputs : List (List Char × Option (List Char))) :
    CombinedStatus :=
  let (comb, allP) := inputs.foldl statusFold ({}, [])
  { comb with players := allP.map (·.2) }

end DSTFish.StatusManager

namespace DSTFish.StatusManager

open DSTFish

theorem splitOnSubAux_ne_nil (sep : List Char) (fuel : Nat) (s : List Char) :
    splitOnSubAux sep fuel s ≠ [] := by
  cases fuel with
  | zero => simp [splitOnSubAux]
  | succ n =>
    simp only [splitOnSubAux]
    split
    · simp
    · split <;> simp

theorem splitOnSubAux_getLast?_drop (sep : List Char) :
    ∀ (fuel : Nat) (s : List Char),
      ∃ k, (splitOnSubAux sep fuel s).getLast? = some (s.drop k) := by
  intro fuel
  induction fuel with
  | zero => intro s; exact ⟨0, by simp [splitOnSubAux]⟩
  | succ n ih =>
    intro s
    simp only [splitOnSubAux]
    split
    · exact ⟨0, by simp⟩
    · split
      · exact ⟨0, by simp⟩
      · rename_i i _
        obtain ⟨k, hk⟩ := ih (s.drop (i + sep.length))
        refine ⟨k + (i + sep.length), ?_⟩
        rcases hrest : splitOnSubAux sep n (s.drop (i + sep.length)) with _ | ⟨b, l⟩
        · exact absurd hrest (splitOnSubAux_ne_nil sep n _)
        · rw [hrest] at hk
          rw [List.getLast?_cons_cons, hk, List.drop_drop]
          rw [show i + sep.length + k = k + (i + sep.length) from by omega]

/-- `content.split("All players:")[-1]` is a suffix of the content. -/
theorem lastDumpOf_is_drop (content : List Char) :
    ∃ k, lastDumpOf content = content.drop k := by
  obtain ⟨k, hk⟩ := splitOnSubAux_getLast?_drop (pstr "All players:")
    content.length content
  exact ⟨k, by simp [lastDumpOf, splitOnSub, List.getLastD_eq_getLast?, hk]⟩

theorem scanAll_eq_nil_of_none {α : Type}
    (step : List Char → Option (α × List Char)) :
    ∀ (fuel : Nat) (s : List Char),
      (∀ k, step (s.drop k) = none) → scanAll step fuel s = [] := by
  intro fuel
  induction fuel with
  | zero => intro s _; rfl
  | succ n ih =>
    intro s h
    cases s with
    | nil => rfl
    | cons c t =>
      have h0 := h 0
      simp only [List.drop_zero] at h0
      simp only [scanAll, h0]
      exact ih t fun k => by
        have := h (k + 1)
        simpa using this

theorem step_none_of_scanAll_nil {α : Type}
    (step : List Char → Option (α × List Char)) (hnil : step [] = none) :
    ∀ (fuel : Nat) (s : List Char), s.length ≤ fuel →
      scanAll step fuel s = [] → ∀ k, step (s.drop k) = none := by
  intro fuel
  induction fuel with
  | zero =>
    intro s hs _ k
    have : s = [] := List.length_eq_zero.mp (Nat.le_zero.mp hs)
    subst this
    simpa using hnil
  | succ n ih =>
    intro s hs hscan k
    cases s with
    | nil => simpa using hnil
    | cons c t =>
      rcases hstep : step (c :: t) with _ | g
      · cases k with
        | zero => simpa using hstep
        | succ m =>
          simp only [scanAll, hstep] at hscan
          have hlen : t.length ≤ n := by simpa using hs
          have := ih t hlen hscan m
          simpa using this
      · simp only [scanAll, hstep] at hscan
        cases hscan

theorem playerStep_nil : playerStep [] = none := rfl

/-- If the whole window has no roster matches, neither has the text after
its last `All players:` marker. -/
theorem playerFindall_lastDump_nil {content : List Char}
    (h : playerFindall content = []) :
    playerFindall (lastDumpOf content) = [] := by
  have hall : ∀ k, playerStep (content.drop k) = none :=
    step_none_of_scanAll_nil playerStep playerStep_nil content.length content
      le_rfl h
  obtain ⟨k0, hk0⟩ := lastDumpOf_is_drop content
  apply scanAll_eq_nil_of_none
  intro k
  rw [hk0, List.drop_drop]
  exact hall (k0 + k)

theorem statusFold_players_nil (inputs : List (List Char × Option (List Char)))
    (h : ∀ nm c, (nm, some c) ∈ inputs → playerFindall c = []) :
    ∀ comb, (inputs.foldl statusFold (comb, [])).2 = [] := by
  induction inputs with
  | nil => intro comb; rfl
  | cons inp rest ih =>
    intro comb
    rcases inp with ⟨nm, file⟩
    cases file with
    | none =>
      simp only [List.foldl_cons, statusFold]
      exact ih (fun nm' c hmem => h nm' c (List.mem_cons_of_mem _ hmem)) _
    | some content =>
      have hc : playerFindall content = [] := h nm content (List.mem_cons_self _ _)
      have hmatches : shardPlayerMatches content = [] :=
        playerFindall_lastDump_nil hc
      simp only [List.foldl_cons, statusFold, hmatches, List.foldl_nil]
      split <;>
        exact ih (fun nm' c hmem => h nm' c (List.mem_cons_of_mem _ hmem)) _

end DSTFish.StatusManager

/-- **C5.** For every log window with zero player-roster matches,
`get_server_status` computes an empty players list for that shard, and
when no shard's window has a match (missing log files included) the
combined players list is empty as well; the computation is a total
function of the window, so no exception is raised. -/
theorem C5_no_roster_matches_empty_players :
    (∀ content : List Char,
       DSTFish.StatusManager.playerFindall content = [] →
       (DSTFish.StatusManager.parseShard content).players = []) ∧
    (∀ inputs : List (List Char × Option (List Char)),
       (∀ nm c, (nm, some c) ∈ inputs →
          DSTFish.StatusManager.playerFindall c = []) →
       (DSTFish.StatusManager.getServerStatus inputs).players = []) := by
  constructor
  · intro content h
    show DSTFish.StatusManager.shardPlayers content = []
    unfold DSTFish.StatusManager.shardPlayers
    rw [show DSTFish.StatusManager.shardPlayerMatches content = [] from
      DSTFish.StatusManager.playerFindall_lastDump_nil h]
    rfl
  · intro inputs h
    have h2 := DSTFish.StatusManager.statusFold_players_nil inputs h {}
    unfold DSTFish.StatusManager.getServerStatus
    rcases hp : inputs.foldl DSTFish.StatusManager.statusFold ({}, []) with ⟨comb, allP⟩
    rw [hp] at h2
    simp only at h2
    subst h2
    rfl

/-- Witness for C5: a window with a season line but no roster line, plus a
cluster where the second shard's log is missing. -/
theorem C5_no_roster_matches_empty_players_witness :
    DSTFish.StatusManager.playerFindall
      (DSTFish.pstr "Season: Summer 10, Remaining: 5 days\n") = [] ∧
    (DSTFish.StatusManager.parseShard
      (DSTFish.pstr "Season: Summer 10, Remaining: 5 days\n")).players = [] ∧
    (DSTFish.StatusManager.getServerStatus
      [(DSTFish.pstr "Master",
        some (DSTFish.pstr "Season: Summer 10, Remaining: 5 days\n")),
       (DSTFish.pstr "Caves", none)]).players = [] := by
  refine ⟨by decide,
    C5_no_roster_matches_empty_players.1 _ (by decide),
    C5_no_roster_matches_empty_players.2 _ ?_⟩
  intro nm c hmem
  simp only [List.mem_cons, List.not_mem_nil, or_false, Prod.mk.injEq] at hmem
  rcases hmem with ⟨_, hc⟩ | ⟨_, hc⟩
  · cases hc
    decide
  · cases hc

/-- **C2, counterexample.**  The claim's hypotheses only constrain *later*
lines, so a window in which an earlier line matches the day pattern
satisfies them; on such a window the parser does not report day "11".
Here the window is `"Current day: 7\n"` followed by exactly the two lines
of the claim (so nothing at all comes after them): the season, days-left
and phase fields agree with the claim but the day field is `"7"`, taken
from the day-pattern match anywhere in the window, not `"11"` from the
season match. -/
theorem C2_counterexample_earlier_day_line :
    (DSTFish.pstr
        "Current day: 7\nSeason: Summer 10, Remaining: 5 days\nCurrent phase: Night\n" =
      DSTFish.pstr "Current day: 7\n" ++
        DSTFish.pstr "Season: Summer 10, Remaining: 5 days\nCurrent phase: Night\n") ∧
    (DSTFish.StatusManager.parseShard (DSTFish.pstr
        "Current day: 7\nSeason: Summer 10, Remaining: 5 days\nCurrent phase: Night\n")).season =
      DSTFish.pstr "Summer" ∧
    (DSTFish.StatusManager.parseShard (DSTFish.pstr
        "Current day: 7\nSeason: Summer 10, Remaining: 5 days\nCurrent phase: Night\n")).days_left =
      DSTFish.pstr "5" ∧
    (DSTFish.StatusManager.parseShard (DSTFish.pstr
        "Current day: 7\nSeason: Summer 10, Remaining: 5 days\nCurrent phase: Night\n")).phase =
      DSTFish.pstr "Night" ∧
    (DSTFish.StatusManager.parseShard (DSTFish.pstr
        "Current day: 7\nSeason: Summer 10, Remaining: 5 days\nCurrent phase: Night\n")).day =
      DSTFish.pstr "7" ∧
    DSTFish.pstr "7" ≠ DSTFish.pstr "11" := by
  exact ⟨by decide, by decide, by decide, by decide, by decide, by decide⟩

/-- **C2, amended.**  If the last season match of the window is
`("Summer", "10", "5")` (which the claim's two lines force when no later
line matches the season pattern), the last phase match is `"Night"`, and
*no line anywhere in the window* matches the day pattern (the amendment:
the original claim only excluded later day lines), then `get_server_status`
yields season `"Summer"`, day `"11"` (elapsed plus one), days-left `"5"`
and phase `"Night"` for that shard. -/
theorem C2_amended_status_example (content : List Char)
    (hs : (DSTFish.StatusManager.seasonFindall content).getLast? =
      some (DSTFish.pstr "Summer", DSTFish.pstr "10", DSTFish.pstr "5"))
    (hd : DSTFish.StatusManager.dayFindall content = [])
    (hp : (DSTFish.StatusManager.phaseFindall content).getLast? =
      some (DSTFish.pstr "Night")) :
    (DSTFish.StatusManager.parseShard content).season = DSTFish.pstr "Summer" ∧
    (DSTFish.StatusManager.parseShard content).day = DSTFish.pstr "11" ∧
    (DSTFish.StatusManager.parseShard content).days_left = DSTFish.pstr "5" ∧
    (DSTFish.StatusManager.parseShard content).phase = DSTFish.pstr "Night" := by
  simp only [DSTFish.StatusManager.parseShard, hs, hd, hp, List.getLast?_nil]
  exact ⟨by decide, by decide, by decide, by decide⟩

/-- Witness for C2: the window consisting of exactly the claim's two
lines. -/
theorem C2_amended_status_example_witness :
    ((DSTFish.StatusManager.seasonFindall (DSTFish.pstr
        "Season: Summer 10, Remaining: 5 days\nCurrent phase: Night\n")).getLast? =
      some (DSTFish.pstr "Summer", DSTFish.pstr "10", DSTFish.pstr "5")) ∧
    (DSTFish.StatusManager.dayFindall (DSTFish.pstr
        "Season: Summer 10, Remaining: 5 days\nCurrent phase: Night\n") = []) ∧
    ((DSTFish.StatusManager.phaseFindall (DSTFish.pstr
        "Season: Summer 10, Remaining: 5 days\nCurrent phase: Night\n")).getLast? =
      some (DSTFish.pstr "Night")) ∧
    (DSTFish.StatusManager.parseShard (DSTFish.pstr
        "Season: Summer 10, Remaining: 5 days\nCurrent phase: Night\n")).day =
      DSTFish.pstr "11" := by
  refine ⟨by decide, by decide, by decide, ?_⟩
  exact (C2_amended_status_example _ (by decide) (by decide) (by decide)).2.1

namespace DSTFish.StatusManager

theorem parseShard_season_of_last (content : List Char)
    (g : List Char × List Char × List Char)
    (hl : (seasonFindall content).getLast? = some g) :
    (parseShard content).season = DSTFish.pyCapitalize g.1 := by
  rcases hdd : (dayFindall content).getLast? with _ | d <;>
    rcases hpp : (phaseFindall content).getLast? with _ | ph <;>
    (simp only [parseShard]; rw [hl, hdd, hpp])

theorem parseShard_daysleft_of_last (content : List Char)
    (g : List Char × List Char × List Char)
    (hl : (seasonFindall content).getLast? = some g) :
    (parseShard content).days_left = g.2.2 := by
  rcases hdd : (dayFindall content).getLast? with _ | d <;>
    rcases hpp : (phaseFindall content).getLast? with _ | ph <;>
    (simp only [parseShard]; rw [hl, hdd, hpp])

theorem parseShard_day_of_last_noday (content : List Char)
    (g : List Char × List Char × List Char)
    (hl : (seasonFindall content).getLast? = some g)
    (hd : dayFindall content = []) :
    (parseShard content).day =
      DSTFish.natToChars (DSTFish.charsToNat g.2.1 + 1) := by
  rcases hpp : (phaseFindall content).getLast? with _ | ph <;>
    (simp only [parseShard]; rw [hl, hd, hpp]; rfl)

theorem parseShard_phase_of_last (content : List Char) (ph : List Char)
    (hp : (phaseFindall content).getLast? = some ph) :
    (parseShard content).phase = DSTFish.pyCapitalize ph := by
  rcases hll : (seasonFindall content).getLast? with _ | g <;>
    rcases hdd : (dayFindall content).getLast? with _ | d <;>
    (simp only [parseShard]; rw [hll, hdd, hp])

end DSTFish.StatusManager

/-- **C4, counterexample.**  A window with two season matches and one
day-pattern line: the last season match is `("Summer", "10", "5")`, so the
claim requires day `"11"` (elapsed plus one), but the day-pattern override
sets day `"7"`; season and days-left do come from the last season
match. -/
theorem C4_counterexample_day_override :
    (DSTFish.StatusManager.seasonFindall (DSTFish.pstr
        "Season: Winter 3, Remaining: 12 days\nSeason: Summer 10, Remaining: 5 days\nCurrent day: 7\n")).length = 2 ∧
    (DSTFish.StatusManager.seasonFindall (DSTFish.pstr
        "Season: Winter 3, Remaining: 12 days\nSeason: Summer 10, Remaining: 5 days\nCurrent day: 7\n")).getLast? =
      some (DSTFish.pstr "Summer", DSTFish.pstr "10", DSTFish.pstr "5") ∧
    (DSTFish.StatusManager.parseShard (DSTFish.pstr
        "Season: Winter 3, Remaining: 12 days\nSeason: Summer 10, Remaining: 5 days\nCurrent day: 7\n")).day =
      DSTFish.pstr "7" ∧
    DSTFish.natToChars (DSTFish.charsToNat (DSTFish.pstr "10") + 1) =
      DSTFish.pstr "11" ∧
    DSTFish.pstr "7" ≠ DSTFish.pstr "11" := by
  exact ⟨by decide, by decide, by decide, by decide, by decide⟩

/-- **C4, amended.**  For every window with more than one season match,
the season and days-left fields are derived from the *last* season match,
ignoring all earlier ones; the day field is derived from that match (as
elapsed plus one) *when no line of the window matches the day pattern*
(the amendment: a day-pattern match overrides it); and the phase field is
taken from the last phase match. -/
theorem C4_amended_last_match_wins (content : List Char)
    (g : List Char × List Char × List Char)
    (hlen : 1 < (DSTFish.StatusManager.seasonFindall content).length)
    (hl : (DSTFish.StatusManager.seasonFindall content).getLast? = some g) :
    (DSTFish.StatusManager.parseShard content).season = DSTFish.pyCapitalize g.1 ∧
    (DSTFish.StatusManager.parseShard content).days_left = g.2.2 ∧
    (DSTFish.StatusManager.dayFindall content = [] →
      (DSTFish.StatusManager.parseShard content).day =
        DSTFish.natToChars (DSTFish.charsToNat g.2.1 + 1)) ∧
    (∀ ph, (DSTFish.StatusManager.phaseFindall content).getLast? = some ph →
      (DSTFish.StatusManager.parseShard content).phase = DSTFish.pyCapitalize ph) :=
  ⟨DSTFish.StatusManager.parseShard_season_of_last content g hl,
   DSTFish.StatusManager.parseShard_daysleft_of_last content g hl,
   fun hd => DSTFish.StatusManager.parseShard_day_of_last_noday content g hl hd,
   fun ph hp => DSTFish.StatusManager.parseShard_phase_of_last content ph hp⟩

/-- Witness for C4: two season lines, a phase line and no day line. -/
theorem C4_amended_last_match_wins_witness :
    (1 < (DSTFish.StatusManager.seasonFindall (DSTFish.pstr
        "Season: Winter 3, Remaining: 12 days\nSeason: Summer 10, Remaining: 5 days\nCurrent phase: Night\n")).length) ∧
    (DSTFish.StatusManager.parseShard (DSTFish.pstr
        "Season: Winter 3, Remaining: 12 days\nSeason: Summer 10, Remaining: 5 days\nCurrent phase: Night\n")).season =
      DSTFish.pyCapitalize (DSTFish.pstr "Summer") ∧
    (DSTFish.StatusManager.parseShard (DSTFish.pstr
        "Season: Winter 3, Remaining: 12 days\nSeason: Summer 10, Remaining: 5 days\nCurrent phase: Night\n")).day =
      DSTFish.natToChars (DSTFish.charsToNat (DSTFish.pstr "10") + 1) ∧
    (DSTFish.StatusManager.parseShard (DSTFish.pstr
        "Season: Winter 3, Remaining: 12 days\nSeason: Summer 10, Remaining: 5 days\nCurrent phase: Night\n")).phase =
      DSTFish.pyCapitalize (DSTFish.pstr "Night") := by
  have h := C4_amended_last_match_wins
    (DSTFish.pstr
      "Season: Winter 3, Remaining: 12 days\nSeason: Summer 10, Remaining: 5 days\nCurrent phase: Night\n")
    (DSTFish.pstr "Summer", DSTFish.pstr "10", DSTFish.pstr "5")
    (by decide) (by decide)
  exact ⟨by decide, h.1, h.2.2.1 (by decide), h.2.2.2 _ (by decide)⟩

/-! ## Round-trip behaviour of `toggle_mod` (claim C1)

The development below proves that two `toggle_mod` substitutions — the
second writing back the original `enabled` value — restore the override
file byte for byte.  The core is a characterization of how the hand
compiled toggle pattern behaves on a string in which a previous
substitution has replaced the captured values. -/

namespace DSTFish.ModManager

open DSTFish

/-- All characters of the list are `\s` characters. -/
def isSpaceList (l : List Char) : Prop := ∀ c ∈ l, isPySpace c = true

/-- No character of the list is the closing brace (the `[^}]*` class). -/
def bracelessL (l : List Char) : Prop := ∀ c ∈ l, c ≠ rbrace

/-- A workshop id as the repository uses them: alphanumerics, `-` and `_`
(no regex metacharacters, no brackets, quotes, braces or whitespace). -/
def goodId (W : List Char) : Prop :=
  ∀ c ∈ W, c.isAlphanum = true ∨ c = '-' ∨ c = '_'

/-- An empty or non-space-headed remainder (what `spaceRun` leaves). -/
def headNotSpace (l : List Char) : Prop :=
  ∀ c t, l = c :: t → isPySpace c = false

theorem isPySpace_spec {c : Char} (h : isPySpace c = true) :
    c = ' ' ∨ c = '\t' ∨ c = '\n' ∨ c = '\r' ∨ c = '\x0b' ∨ c = '\x0c' := by
  simp only [isPySpace, Bool.or_eq_true, beq_iff_eq, decide_eq_true_eq] at h
  tauto

theorem isPySpace_ne_e {c : Char} (h : isPySpace c = true) : c ≠ 'e' := by
  rcases isPySpace_spec h with h | h | h | h | h | h <;> subst h <;> decide

theorem isPySpace_ne_lbracket {c : Char} (h : isPySpace c = true) : c ≠ '[' := by
  rcases isPySpace_spec h with h | h | h | h | h | h <;> subst h <;> decide

theorem isPySpace_ne_rbrace {c : Char} (h : isPySpace c = true) : c ≠ rbrace := by
  rcases isPySpace_spec h with h | h | h | h | h | h <;> subst h <;> decide

theorem goodId_ne_lbracket {W : List Char} (hW : goodId W) {c : Char}
    (hc : c ∈ W) : c ≠ '[' := by
  rcases hW c hc with h | h | h
  · intro he; subst he; exact absurd h (by decide)
  · subst h; decide
  · subst h; decide

theorem goodId_ne_rbrace {W : List Char} (hW : goodId W) {c : Char}
    (hc : c ∈ W) : c ≠ rbrace := by
  rcases hW c hc with h | h | h
  · intro he; subst he; exact absurd h (by decide)
  · subst h; decide
  · subst h; decide

theorem stripLit_eq_some {lit s r : List Char} :
    stripLit lit s = some r ↔ s = lit ++ r := by
  induction lit generalizing s with
  | nil =>
    cases s <;> simp [stripLit]
  | cons l lt ih =>
    cases s with
    | nil => simp [stripLit]
    | cons c t =>
      by_cases hc : c = l
      · subst hc
        simp [stripLit, ih]
      · simp [stripLit, hc, Ne.symm hc]

theorem spaceRun_append {sp r : List Char} (hsp : isSpaceList sp)
    (hr : headNotSpace r) : spaceRun (sp ++ r) = (sp.length, r) := by
  induction sp with
  | nil =>
    cases r with
    | nil => rfl
    | cons c t =>
      have := hr c t rfl
      simp [spaceRun, this]
  | cons c sp' ih =>
    have hc : isPySpace c = true := hsp c (List.mem_cons_self _ _)
    have := ih (fun x hx => hsp x (List.mem_cons_of_mem _ hx))
    simp [spaceRun, hc, this]

theorem spaceRun_decomp (s : List Char) :
    ∃ sp, s = sp ++ (spaceRun s).2 ∧ (spaceRun s).1 = sp.length ∧
      isSpaceList sp ∧ headNotSpace (spaceRun s).2 := by
  induction s with
  | nil =>
    exact ⟨[], rfl, rfl, fun c h => absurd h (List.not_mem_nil c),
      fun c t h => by cases h⟩
  | cons c t ih =>
    by_cases hc : isPySpace c = true
    · obtain ⟨sp, h1, h2, h3, h4⟩ := ih
      refine ⟨c :: sp, ?_, ?_, ?_, ?_⟩
      · simp only [spaceRun, hc, if_true]
        rw [List.cons_append]
        exact congrArg (c :: ·) h1
      · simp only [spaceRun, hc, if_true, List.length_cons]
        omega
      · intro x hx
        rcases List.mem_cons.mp hx with h | h
        · subst h; exact hc
        · exact h3 x h
      · simp only [spaceRun, hc, if_true]
        exact h4
    · have hc' : isPySpace c = false := by
        cases h : isPySpace c
        · rfl
        · exact absurd h hc
      refine ⟨[], ?_, ?_, ?_, ?_⟩
      · simp [spaceRun, hc']
      · simp [spaceRun, hc']
      · intro x hx; exact absurd hx (List.not_mem_nil x)
      · intro x u hxu
        simp only [spaceRun, hc', if_false] at hxu
        cases hxu
        exact hc'

/-- Group 1's tail in the toggle pattern: `enabled\s*=\s*`. -/
def enabPat (sp1 sp2 : List Char) : List Char :=
  pstr "enabled" ++ sp1 ++ '=' :: sp2

/-- The head of the toggle pattern: `\["W"\]\s*=\s*\{`. -/
def headPat (W sp1 sp2 : List Char) : List Char :=
  '[' :: '"' :: W ++ '"' :: ']' :: sp1 ++ '=' :: sp2 ++ [lbrace]

theorem enabPat_length (sp1 sp2 : List Char) :
    (enabPat sp1 sp2).length = 7 + sp1.length + 1 + sp2.length := by
  simp [enabPat, pstr]
  omega

theorem headPat_length (W sp1 sp2 : List Char) :
    (headPat W sp1 sp2).length = 4 + W.length + sp1.length + 1 + sp2.length + 1 := by
  simp [headPat]
  omega

theorem boolChars_ne_nil (v : Bool) : boolChars v ≠ [] := by
  cases v <;> simp [boolChars, pstr]

theorem vlen_pos (v : Bool) : 0 < vlen v := by
  cases v <;> decide

theorem headNotSpace_boolChars (v : Bool) (rest : List Char) :
    headNotSpace (boolChars v ++ rest) := by
  cases v <;> (intro c t h; simp [boolChars, pstr] at h; rw [← h.1]; decide)

theorem stripLit_true_on_false (rest : List Char) :
    stripLit (pstr "true") (pstr "false" ++ rest) = none := by
  cases h : stripLit (pstr "true") (pstr "false" ++ rest) with
  | none => rfl
  | some r =>
    have := stripLit_eq_some.mp h
    simp [pstr] at this

theorem enabledAt_construct {sp1 sp2 : List Char} (h1 : isSpaceList sp1)
    (h2 : isSpaceList sp2) (v : Bool) (rest : List Char) :
    enabledAt (enabPat sp1 sp2 ++ boolChars v ++ rest) =
      some (7 + sp1.length + 1 + sp2.length, v) := by
  have hs : stripLit (pstr "enabled")
      (enabPat sp1 sp2 ++ boolChars v ++ rest) =
      some (sp1 ++ '=' :: (sp2 ++ (boolChars v ++ rest))) := by
    apply stripLit_eq_some.mpr
    simp [enabPat]
  have hsp1 : spaceRun (sp1 ++ '=' :: (sp2 ++ (boolChars v ++ rest))) =
      (sp1.length, '=' :: (sp2 ++ (boolChars v ++ rest))) :=
    spaceRun_append h1 (fun c t h => by cases h; decide)
  have hsp2 : spaceRun (sp2 ++ (boolChars v ++ rest)) =
      (sp2.length, boolChars v ++ rest) :=
    spaceRun_append h2 (headNotSpace_boolChars v rest)
  cases v with
  | true =>
    have ht : stripLit (pstr "true") (boolChars true ++ rest) = some rest :=
      stripLit_eq_some.mpr rfl
    simp only [enabledAt, hs, hsp1, hsp2, ht]
  | false =>
    have hf : stripLit (pstr "true") (boolChars false ++ rest) = none :=
      stripLit_true_on_false rest
    have hf2 : stripLit (pstr "false") (boolChars false ++ rest) = some rest :=
      stripLit_eq_some.mpr rfl
    simp only [enabledAt, hs, hsp1, hsp2, hf, hf2]

theorem enabledAt_inversion {s : List Char} {l : Nat} {v : Bool}
    (h : enabledAt s = some (l, v)) :
    ∃ sp1 sp2 rest, s = enabPat sp1 sp2 ++ boolChars v ++ rest ∧
      l = 7 + sp1.length + 1 + sp2.length ∧ isSpaceList sp1 ∧ isSpaceList sp2 := by
  unfold enabledAt at h
  split at h
  · cases h
  rename_i r1 hstrip
  have hs : s = pstr "enabled" ++ r1 := stripLit_eq_some.mp hstrip
  obtain ⟨sp1, hr1, hn1, hsp1, hns1⟩ := spaceRun_decomp r1
  split at h
  rename_i n1 r2 hrun
  rw [hrun] at hn1 hr1
  simp only at hn1 hr1
  split at h
  · rename_i u t3
    obtain ⟨sp2, ht3, hn2, hsp2, hns2⟩ := spaceRun_decomp t3
    split at h
    rename_i n2 r4 hrun2
    rw [hrun2] at hn2 ht3
    simp only at hn2 ht3
    split at h
    · rename_i val hval
      have hrest : r4 = pstr "true" ++ val := stripLit_eq_some.mp hval
      injection h with h1
      injection h1 with hl hv
      refine ⟨sp1, sp2, val, ?_, ?_, hsp1, hsp2⟩
      · rw [hs, hr1, ht3, hrest, ← hv]
        simp [enabPat, boolChars]
      · rw [← hl, hn1, hn2]
    · split at h
      · rename_i val hval
        have hrest : r4 = pstr "false" ++ val := stripLit_eq_some.mp hval
        injection h with h1
        injection h1 with hl hv
        refine ⟨sp1, sp2, val, ?_, ?_, hsp1, hsp2⟩
        · rw [hs, hr1, ht3, hrest, ← hv]
          simp [enabPat, boolChars]
        · rw [← hl, hn1, hn2]
      · cases h
  · cases h

theorem enabledAt_head {c : Char} {t : List Char} {g : Nat × Bool}
    (h : enabledAt (c :: t) = some g) : c = 'e' := by
  obtain ⟨sp1, sp2, rest, hs, _, _, _⟩ := enabledAt_inversion h
  simp [enabPat, pstr] at hs
  exact hs.1.symm ▸ rfl

theorem parseHead_construct {W sp1 sp2 X : List Char} (h1 : isSpaceList sp1)
    (h2 : isSpaceList sp2) :
    parseHead W (headPat W sp1 sp2 ++ X) =
      some (4 + W.length + sp1.length + 1 + sp2.length + 1, X) := by
  have hstrip : stripLit ('[' :: '"' :: (W ++ ['"', ']']))
      (headPat W sp1 sp2 ++ X) =
      some (sp1 ++ '=' :: (sp2 ++ lbrace :: X)) := by
    apply stripLit_eq_some.mpr
    simp [headPat]
  have hsp1 : spaceRun (sp1 ++ '=' :: (sp2 ++ lbrace :: X)) =
      (sp1.length, '=' :: (sp2 ++ lbrace :: X)) :=
    spaceRun_append h1 (fun c t h => by cases h; decide)
  have hsp2 : spaceRun (sp2 ++ lbrace :: X) = (sp2.length, lbrace :: X) :=
    spaceRun_append h2 (fun c t h => by cases h; decide)
  simp only [parseHead, hstrip, hsp1, hsp2]
  simp

theorem parseHead_inversion {W s : List Char} {hh : Nat} {rest : List Char}
    (h : parseHead W s = some (hh, rest)) :
    ∃ sp1 sp2, s = headPat W sp1 sp2 ++ rest ∧
      hh = 4 + W.length + sp1.length + 1 + sp2.length + 1 ∧
      isSpaceList sp1 ∧ isSpaceList sp2 := by
  unfold parseHead at h
  split at h
  · cases h
  rename_i r1 hstrip
  have hs : s = ('[' :: '"' :: (W ++ ['"', ']'])) ++ r1 :=
    stripLit_eq_some.mp hstrip
  obtain ⟨sp1, hr1, hn1, hsp1, hns1⟩ := spaceRun_decomp r1
  split at h
  rename_i n1 r2 hrun
  rw [hrun] at hn1 hr1
  simp only at hn1 hr1
  split at h
  · rename_i u t3
    obtain ⟨sp2, ht3, hn2, hsp2, hns2⟩ := spaceRun_decomp t3
    split at h
    rename_i n2 r4 hrun2
    rw [hrun2] at hn2 ht3
    simp only at hn2 ht3
    split at h
    · rename_i c r5
      split at h
      · rename_i hc
        injection h with h1
        injection h1 with hhh hr
        refine ⟨sp1, sp2, ?_, ?_, hsp1, hsp2⟩
        · rw [hs, hr1, ht3, ← hr, hc]
          simp [headPat]
        · rw [← hhh, hn1, hn2]
      · cases h
    · cases h
  · cases h

theorem enabledAt_nil : enabledAt [] = none := rfl

theorem enabledAt_ne_e {c : Char} {t : List Char} (hc : c ≠ 'e') :
    enabledAt (c :: t) = none := by
  cases h : enabledAt (c :: t) with
  | none => rfl
  | some g => exact absurd (enabledAt_head h) hc

theorem bracelessL_cons {c : Char} {l : List Char} :
    bracelessL (c :: l) ↔ c ≠ rbrace ∧ bracelessL l :=
  List.forall_mem_cons

theorem lastEnabled_none_spec : ∀ {u : List Char}, lastEnabled u = none →
    ∀ j, bracelessL (u.take j) → enabledAt (u.drop j) = none := by
  intro u
  induction u with
  | nil => intro _ j _; simp [enabledAt_nil]
  | cons c t ih =>
    intro h j hbl
    by_cases hc : c = rbrace
    · subst hc
      cases j with
      | zero =>
        exact enabledAt_ne_e (by decide)
      | succ j' =>
        rw [List.take_succ_cons] at hbl
        exact absurd rfl (hbl rbrace (List.mem_cons_self _ _))
    · unfold lastEnabled at h
      rw [if_neg hc] at h
      cases hlt : lastEnabled t with
      | some g => rw [hlt] at h; rcases g with ⟨q, l, v⟩; cases h
      | none =>
        rw [hlt] at h
        cases j with
        | zero =>
          simp only [List.drop_zero]
          exact Option.map_eq_none'.mp h
        | succ j' =>
          rw [List.take_succ_cons, bracelessL_cons] at hbl
          rw [List.drop_succ_cons]
          exact ih hlt j' hbl.2

theorem lastEnabled_some_spec : ∀ {u : List Char} {q l : Nat} {v : Bool},
    lastEnabled u = some (q, l, v) →
    enabledAt (u.drop q) = some (l, v) ∧ bracelessL (u.take q) ∧
      ∀ j, q < j → bracelessL (u.take j) → enabledAt (u.drop j) = none := by
  intro u
  induction u with
  | nil => intro q l v h; cases h
  | cons c t ih =>
    intro q l v h
    unfold lastEnabled at h
    by_cases hc : c = rbrace
    · rw [if_pos hc] at h; cases h
    · rw [if_neg hc] at h
      cases hlt : lastEnabled t with
      | some g =>
        rcases g with ⟨q', l', v'⟩
        rw [hlt] at h
        simp only [Option.some.injEq, Prod.mk.injEq] at h
        obtain ⟨hq, hl, hv⟩ := h
        subst hq; subst hl; subst hv
        obtain ⟨e1, e2, e3⟩ := ih hlt
        refine ⟨by rw [List.drop_succ_cons]; exact e1, ?_, ?_⟩
        · rw [List.take_succ_cons, bracelessL_cons]
          exact ⟨hc, e2⟩
        · intro j hj hbl
          cases j with
          | zero => omega
          | succ j' =>
            rw [List.take_succ_cons, bracelessL_cons] at hbl
            rw [List.drop_succ_cons]
            exact e3 j' (by omega) hbl.2
      | none =>
        rw [hlt] at h
        cases hea : enabledAt (c :: t) with
        | none => rw [hea] at h; cases h
        | some g0 =>
          rcases g0 with ⟨l0, v0⟩
          rw [hea] at h
          simp only [Option.map_some', Option.some.injEq, Prod.mk.injEq] at h
          obtain ⟨hq, hl, hv⟩ := h
          subst hq; subst hl; subst hv
          refine ⟨by simpa using hea, by simp [bracelessL], ?_⟩
          intro j hj hbl
          cases j with
          | zero => omega
          | succ j' =>
            rw [List.take_succ_cons, bracelessL_cons] at hbl
            rw [List.drop_succ_cons]
            exact lastEnabled_none_spec hlt j' hbl.2

theorem lastEnabled_construct : ∀ {u : List Char} {q l : Nat} {v : Bool},
    enabledAt (u.drop q) = some (l, v) →
    bracelessL (u.take q) →
    (∀ j, q < j → bracelessL (u.take j) → enabledAt (u.drop j) = none) →
    lastEnabled u = some (q, l, v) := by
  intro u
  induction u with
  | nil =>
    intro q l v h1 _ _
    rw [List.drop_nil] at h1
    cases h1
  | cons c t ih =>
    intro q l v h1 h2 h3
    have hc : c ≠ rbrace := by
      cases q with
      | zero =>
        rw [List.drop_zero] at h1
        rw [enabledAt_head h1]
        decide
      | succ q' =>
        rw [List.take_succ_cons, bracelessL_cons] at h2
        exact h2.1
    unfold lastEnabled
    rw [if_neg hc]
    cases q with
    | zero =>
      have hlt : lastEnabled t = none := by
        cases hlt : lastEnabled t with
        | none => rfl
        | some g =>
          rcases g with ⟨q', l', v'⟩
          obtain ⟨e1, e2, _⟩ := lastEnabled_some_spec hlt
          have hbl : bracelessL ((c :: t).take (q' + 1)) := by
            rw [List.take_succ_cons, bracelessL_cons]
            exact ⟨hc, e2⟩
          have := h3 (q' + 1) (by omega) hbl
          rw [List.drop_succ_cons] at this
          rw [this] at e1
          cases e1
      rw [hlt]
      rw [List.drop_zero] at h1
      rw [h1]
      rfl
    | succ q' =>
      have h1' : enabledAt (t.drop q') = some (l, v) := by
        rw [List.drop_succ_cons] at h1; exact h1
      have h2' : bracelessL (t.take q') := by
        rw [List.take_succ_cons, bracelessL_cons] at h2; exact h2.2
      have h3' : ∀ j, q' < j → bracelessL (t.take j) →
          enabledAt (t.drop j) = none := by
        intro j hj hbl
        have hbl' : bracelessL ((c :: t).take (j + 1)) := by
          rw [List.take_succ_cons, bracelessL_cons]
          exact ⟨hc, hbl⟩
        have := h3 (j + 1) (by omega) hbl'
        rw [List.drop_succ_cons] at this
        exact this
      rw [ih h1' h2' h3']

theorem matchAt_eq_bind (W s : List Char) :
    matchAt W s = (parseHead W s).bind
      (fun pr => (lastEnabled pr.2).map
        (fun g => (pr.1 + g.1 + g.2.1, g.2.2))) := by
  unfold matchAt
  cases parseHead W s with
  | none => rfl
  | some pr =>
    rcases pr with ⟨hh, rest⟩
    show (match lastEnabled rest with
          | none => none
          | some (q, l, v) => some (hh + q + l, v)) =
        (lastEnabled rest).map (fun g => (hh + g.1 + g.2.1, g.2.2))
    cases lastEnabled rest with
    | none => rfl
    | some g => rcases g with ⟨q, l, v⟩; rfl

theorem matchAt_elim {W s : List Char} {p : Nat} {v : Bool}
    (h : matchAt W s = some (p, v)) :
    ∃ hh rest q l, parseHead W s = some (hh, rest) ∧
      lastEnabled rest = some (q, l, v) ∧ p = hh + q + l := by
  rw [matchAt_eq_bind] at h
  rcases hph : parseHead W s with _ | ⟨hh, rest⟩
  · rw [hph] at h; cases h
  · rw [hph] at h
    simp only [Option.some_bind] at h
    rcases hle : lastEnabled rest with _ | ⟨q, l, v0⟩
    · rw [hle] at h; cases h
    · rw [hle] at h
      simp only [Option.some_bind, Option.map_some'] at h
      injection h with h1
      injection h1 with hp hv
      subst hv
      exact ⟨hh, rest, q, l, hph ▸ rfl, hle, hp.symm⟩

theorem matchAt_intro {W s : List Char} {hh : Nat} {rest : List Char}
    {q l : Nat} {v : Bool}
    (h1 : parseHead W s = some (hh, rest))
    (h2 : lastEnabled rest = some (q, l, v)) :
    matchAt W s = some (hh + q + l, v) := by
  rw [matchAt_eq_bind, h1]
  simp [h2]

theorem matchAt_none_elim {W s : List Char} (h : matchAt W s = none)
    {hh : Nat} {rest : List Char} (h1 : parseHead W s = some (hh, rest)) :
    lastEnabled rest = none := by
  rw [matchAt_eq_bind, h1] at h
  simp only [Option.some_bind] at h
  rcases hle : lastEnabled rest with _ | g
  · rfl
  · rw [hle] at h
    simp at h

theorem take_add_len {α : Type} (l₁ l₂ : List α) (i : Nat) :
    (l₁ ++ l₂).take (l₁.length + i) = l₁ ++ l₂.take i := by
  rw [List.take_append_eq_append_take]
  congr 1
  · exact List.take_of_length_le (by omega)
  · congr 1
    omega

theorem drop_add_len {α : Type} (l₁ l₂ : List α) (i : Nat) :
    (l₁ ++ l₂).drop (l₁.length + i) = l₂.drop i := by
  rw [List.drop_append_eq_append_drop]
  rw [List.drop_of_length_le (by omega : l₁.length ≤ l₁.length + i)]
  simp only [List.nil_append]
  congr 1
  omega

theorem matchAt_split {W s : List Char} {p : Nat} {v : Bool}
    (h : matchAt W s = some (p, v)) :
    ∃ sp1 sp2 rest q sp3 sp4,
      parseHead W s = some ((headPat W sp1 sp2).length, rest) ∧
      lastEnabled rest = some (q, (enabPat sp3 sp4).length, v) ∧
      isSpaceList sp1 ∧ isSpaceList sp2 ∧ isSpaceList sp3 ∧ isSpaceList sp4 ∧
      s = headPat W sp1 sp2 ++ rest ∧
      rest = rest.take q ++ (enabPat sp3 sp4 ++
        (boolChars v ++ rest.drop (q + (enabPat sp3 sp4).length + vlen v))) ∧
      (rest.take q).length = q ∧
      bracelessL (rest.take q) ∧
      p = (headPat W sp1 sp2).length + q + (enabPat sp3 sp4).length ∧
      s.take p = headPat W sp1 sp2 ++ (rest.take q ++ enabPat sp3 sp4) ∧
      s.drop (p + vlen v) = rest.drop (q + (enabPat sp3 sp4).length + vlen v) ∧
      (∀ j, q < j → bracelessL (rest.take j) → enabledAt (rest.drop j) = none) := by
  obtain ⟨hh, rest, q, l, hph, hle, hp⟩ := matchAt_elim h
  obtain ⟨e1, e2, e3⟩ := lastEnabled_some_spec hle
  obtain ⟨sp3, sp4, D0, hdec, hl, hs3, hs4⟩ := enabledAt_inversion e1
  obtain ⟨sp1, sp2, hsdec, hhh, hs1, hs2⟩ := parseHead_inversion hph
  have hlEP : l = (enabPat sp3 sp4).length := by rw [enabPat_length]; omega
  have hhHP : hh = (headPat W sp1 sp2).length := by rw [headPat_length]; omega
  have hq : q ≤ rest.length := by
    by_contra hq
    push_neg at hq
    rw [List.drop_eq_nil_of_le (by omega), enabledAt_nil] at e1
    cases e1
  have htkq : (rest.take q).length = q := by
    rw [List.length_take]; omega
  have hdec' : rest.drop q = enabPat sp3 sp4 ++ (boolChars v ++ D0) := by
    rw [hdec, List.append_assoc]
  have hD0 : D0 = rest.drop (q + l + vlen v) := by
    have h1 : rest.drop (q + l + vlen v) = ((rest.drop q).drop l).drop (vlen v) := by
      rw [List.drop_drop, List.drop_drop]
      congr 1
      omega
    rw [h1, hdec', List.drop_left' hlEP.symm,
      List.drop_left' (show (boolChars v).length = vlen v from rfl)]
  have hrest : rest = rest.take q ++ (enabPat sp3 sp4 ++ (boolChars v ++ D0)) := by
    conv_lhs => rw [← List.take_append_drop q rest]
    rw [hdec']
  have htake : s.take p = headPat W sp1 sp2 ++ (rest.take q ++ enabPat sp3 sp4) := by
    have h2 := take_add_len (headPat W sp1 sp2) rest (q + l)
    rw [hsdec, hp, hhHP,
      show (headPat W sp1 sp2).length + q + l =
        (headPat W sp1 sp2).length + (q + l) from by omega, h2]
    congr 1
    have h3 := take_add_len (rest.take q) (enabPat sp3 sp4 ++ (boolChars v ++ D0)) l
    rw [htkq] at h3
    conv_lhs => rw [hrest]
    rw [h3, List.take_left' hlEP.symm]
  have hdrop : s.drop (p + vlen v) = rest.drop (q + l + vlen v) := by
    have h2 := drop_add_len (headPat W sp1 sp2) rest (q + l + vlen v)
    rw [hsdec, hp, hhHP,
      show (headPat W sp1 sp2).length + q + l + vlen v =
        (headPat W sp1 sp2).length + (q + l + vlen v) from by omega, h2]
  subst hlEP
  subst hhHP
  exact ⟨sp1, sp2, rest, q, sp3, sp4, hph, hle, hs1, hs2, hs3, hs4, hsdec,
    by rw [← hD0]; exact hrest, htkq, e2, hp, htake, hdrop, e3⟩

theorem toggleScanAux_congr (W : List Char) (e : Bool) :
    ∀ f1 f2 s, s.length ≤ f1 → s.length ≤ f2 →
      toggleScanAux W e f1 s = toggleScanAux W e f2 s := by
  intro f1
  induction f1 with
  | zero =>
    intro f2 s h1 _
    have : s = [] := List.length_eq_zero.mp (by omega)
    subst this
    cases f2 <;> rfl
  | succ n ih =>
    intro f2 s h1 h2
    cases s with
    | nil => cases f2 <;> rfl
    | cons c t =>
      cases f2 with
      | zero => simp at h2
      | succ m =>
        cases hm : matchAt W (c :: t) with
        | none =>
          have hrec := ih m t (by simpa using h1) (by simpa using h2)
          simp only [toggleScanAux, hm, hrec]
        | some g =>
          rcases g with ⟨p, v⟩
          have hlen : ((c :: t).drop (p + vlen v)).length ≤ t.length := by
            rw [List.length_drop]
            have := vlen_pos v
            simp only [List.length_cons]
            omega
          have hrec := ih m ((c :: t).drop (p + vlen v))
            (by simp only [List.length_cons] at h1; omega)
            (by simp only [List.length_cons] at h2; omega)
          simp only [toggleScanAux, hm, hrec]

theorem toggleScan_cons_none {W : List Char} {e : Bool} {c : Char}
    {t : List Char} (h : matchAt W (c :: t) = none) :
    toggleScan W e (c :: t) =
      (c :: (toggleScan W e t).1, (toggleScan W e t).2) := by
  unfold toggleScan
  simp only [List.length_cons, toggleScanAux, h]

theorem toggleScan_cons_some {W : List Char} {e : Bool} {c : Char}
    {t : List Char} {p : Nat} {v : Bool}
    (h : matchAt W (c :: t) = some (p, v)) :
    toggleScan W e (c :: t) =
      ((c :: t).take p ++ boolChars e ++
        (toggleScan W e ((c :: t).drop (p + vlen v))).1,
       v :: (toggleScan W e ((c :: t).drop (p + vlen v))).2) := by
  unfold toggleScan
  simp only [List.length_cons, toggleScanAux, h]
  have hcongr := toggleScanAux_congr W e t.length
    ((c :: t).drop (p + vlen v)).length ((c :: t).drop (p + vlen v))
    (by rw [List.length_drop]; have := vlen_pos v; simp only [List.length_cons]; omega)
    le_rfl
  rw [hcongr]

/-- The relation between a string and any possible output of the
substitution scan: positions scanned without a match keep their
character, matched spans keep group 1 and replace the value. -/
inductive Rel (W : List Char) (e : Bool) : List Char → List Char → Prop
  | nil : Rel W e [] []
  | skip {c : Char} {t t' : List Char} :
      matchAt W (c :: t) = none → Rel W e t t' → Rel W e (c :: t) (c :: t')
  | rep {s r : List Char} {p : Nat} {v : Bool} :
      matchAt W s = some (p, v) → Rel W e (s.drop (p + vlen v)) r →
      Rel W e s (s.take p ++ boolChars e ++ r)

theorem toggleScan_rel (W : List Char) (e : Bool) :
    ∀ n s, s.length ≤ n → Rel W e s (toggleScan W e s).1 := by
  intro n
  induction n with
  | zero =>
    intro s hs
    have : s = [] := List.length_eq_zero.mp (by omega)
    subst this
    exact Rel.nil
  | succ m ih =>
    intro s hs
    cases s with
    | nil => exact Rel.nil
    | cons c t =>
      cases hm : matchAt W (c :: t) with
      | none =>
        rw [toggleScan_cons_none hm]
        exact Rel.skip hm (ih t (by simpa using hs))
      | some g =>
        rcases g with ⟨p, v⟩
        rw [toggleScan_cons_some hm]
        refine Rel.rep hm (ih _ ?_)
        rw [List.length_drop]
        have := vlen_pos v
        simp only [List.length_cons] at hs ⊢
        omega

theorem matchAt_cons_lbracket {W s : List Char} {p : Nat} {v : Bool}
    (h : matchAt W s = some (p, v)) : ∃ t, s = '[' :: t ∧ 1 ≤ p := by
  obtain ⟨sp1, sp2, rest, q, sp3, sp4, _, _, _, _, _, _, hsdec, _, _, _, hp,
    _, _, _⟩ := matchAt_split h
  refine ⟨'"' :: (W ++ '"' :: ']' :: sp1 ++ '=' :: sp2 ++ [lbrace]) ++ rest, ?_, ?_⟩
  · rw [hsdec]
    simp [headPat]
  · rw [hp, headPat_length]
    omega

/-- Prefixes of the output free of `[` agree with the input, and the
relation restricts to the suffixes. -/
theorem rel_take_drop {W : List Char} {e : Bool} :
    ∀ {u u' : List Char}, Rel W e u u' →
    ∀ m, (∀ c ∈ u'.take m, c ≠ '[') →
      u.take m = u'.take m ∧ Rel W e (u.drop m) (u'.drop m) := by
  intro u u' hrel
  induction hrel with
  | nil => intro m _; simp [Rel.nil]
  | skip hm hr ih =>
    intro m hbl
    cases m with
    | zero => simpa using Rel.skip hm hr
    | succ m' =>
      rename_i c t t'
      rw [List.take_succ_cons] at hbl ⊢
      rw [List.take_succ_cons]
      obtain ⟨ih1, ih2⟩ := ih m' (fun x hx => hbl x (List.mem_cons_of_mem _ hx))
      refine ⟨by rw [ih1], ?_⟩
      rw [List.drop_succ_cons, List.drop_succ_cons]
      exact ih2
  | rep hm hr ih =>
    intro m hbl
    cases m with
    | zero => simpa using Rel.rep hm hr
    | succ m' =>
      rename_i s r p v
      obtain ⟨t, hs, hp1⟩ := matchAt_cons_lbracket hm
      exfalso
      apply hbl '[' _ rfl
      have hhead : (s.take p ++ boolChars e ++ r).take (m' + 1) =
          '[' :: ((s.take p ++ boolChars e ++ r).take (m' + 1)).tail := by
        have : s.take p = '[' :: t.take (p - 1) := by
          rw [hs]
          cases p with
          | zero => omega
          | succ p' => simp [List.take_succ_cons]
        rw [List.append_assoc, this]
        simp [List.take_succ_cons]
      rw [hhead]
      exact List.mem_cons_self _ _

theorem pstr_enabled_eq : pstr "enabled" = ['e', 'n', 'a', 'b', 'l', 'e', 'd'] := rfl

theorem pstr_nabled_eq : pstr "nabled" = ['n', 'a', 'b', 'l', 'e', 'd'] := rfl

theorem boolChars_true_eq : boolChars true = ['t', 'r', 'u', 'e'] := rfl

theorem boolChars_false_eq : boolChars false = ['f', 'a', 'l', 's', 'e'] := rfl

theorem boolChars_mem_ne {v : Bool} {c : Char} (hc : c ∈ boolChars v) :
    c ≠ '[' ∧ c ≠ rbrace := by
  cases v <;>
    (first
      | rw [boolChars_true_eq] at hc
      | rw [boolChars_false_eq] at hc) <;>
    (simp only [List.mem_cons, List.not_mem_nil, or_false] at hc
     casesm* _ ∨ _ <;> (rename_i hx; subst hx; exact ⟨by decide, by decide⟩))

theorem enabPat_mem_ne {sp1 sp2 : List Char} (h1 : isSpaceList sp1)
    (h2 : isSpaceList sp2) {c : Char} (hc : c ∈ enabPat sp1 sp2) :
    c ≠ '[' ∧ c ≠ rbrace := by
  simp only [enabPat, pstr_enabled_eq, List.append_assoc, List.mem_append,
    List.mem_cons, List.not_mem_nil, or_false] at hc
  casesm* _ ∨ _
  all_goals rename_i hx
  all_goals first
    | (subst hx; exact ⟨by decide, by decide⟩)
    | exact ⟨isPySpace_ne_lbracket (h1 c hx), isPySpace_ne_rbrace (h1 c hx)⟩
    | exact ⟨isPySpace_ne_lbracket (h2 c hx), isPySpace_ne_rbrace (h2 c hx)⟩

theorem headPat_mem_ne {W sp1 sp2 : List Char} (hW : goodId W)
    (h1 : isSpaceList sp1) (h2 : isSpaceList sp2) {c : Char}
    (hc : c ∈ headPat W sp1 sp2) : c ≠ rbrace := by
  simp only [headPat, List.append_assoc, List.mem_append, List.mem_cons,
    List.mem_singleton, List.not_mem_nil, or_false] at hc
  casesm* _ ∨ _
  all_goals rename_i hx
  all_goals first
    | (subst hx; decide)
    | exact goodId_ne_rbrace hW hx
    | exact isPySpace_ne_rbrace (h1 c hx)
    | exact isPySpace_ne_rbrace (h2 c hx)

theorem headPat_tail_mem_ne {W sp1 sp2 : List Char} (hW : goodId W)
    (h1 : isSpaceList sp1) (h2 : isSpaceList sp2) {c : Char}
    (hc : c ∈ ('"' :: (W ++ '"' :: ']' :: sp1 ++ '=' :: sp2 ++ [lbrace]))) :
    c ≠ '[' := by
  simp only [List.append_assoc, List.mem_append, List.mem_cons,
    List.mem_singleton, List.not_mem_nil, or_false] at hc
  casesm* _ ∨ _
  all_goals rename_i hx
  all_goals first
    | (subst hx; decide)
    | exact goodId_ne_lbracket hW hx
    | exact isPySpace_ne_lbracket (h1 c hx)
    | exact isPySpace_ne_lbracket (h2 c hx)

theorem spanTail_eq (sp1 sp2 : List Char) (v : Bool) :
    enabPat sp1 sp2 ++ boolChars v =
      'e' :: ((pstr "nabled" ++ sp1 ++ '=' :: sp2) ++ boolChars v) := rfl

theorem rel_no_success {W : List Char} {e : Bool} (hW : goodId W) :
    ∀ {u u' : List Char}, Rel W e u u' →
    (∀ j, bracelessL (u.take j) → enabledAt (u.drop j) = none) →
    ∀ j, bracelessL (u'.take j) → enabledAt (u'.drop j) = none := by
  intro u u' hrel
  induction hrel with
  | nil =>
    intro _ j _
    simp [enabledAt_nil]
  | skip hm hr ih =>
    rename_i c t t'
    intro H j hbl
    cases j with
    | zero =>
      simp only [List.drop_zero]
      rcases hea : enabledAt (c :: t') with _ | ⟨l, v⟩
      · rfl
      · exfalso
        obtain ⟨sp1, sp2, rest', hdec, hl, hs1, hs2⟩ := enabledAt_inversion hea
        rw [spanTail_eq] at hdec
        rw [List.cons_append] at hdec
        injection hdec with hc ht'
        have hnb : ∀ x ∈
            t'.take ((pstr "nabled" ++ sp1 ++ '=' :: sp2) ++ boolChars v).length,
            x ≠ '[' := by
          rw [ht', List.take_left]
          intro x hx
          have hx2 : x ∈ enabPat sp1 sp2 ++ boolChars v := by
            rw [spanTail_eq]
            exact List.mem_cons_of_mem _ hx
          rcases List.mem_append.mp hx2 with h | h
          · exact (enabPat_mem_ne hs1 hs2 h).1
          · exact (boolChars_mem_ne h).1
        obtain ⟨hagree, _⟩ := rel_take_drop hr _ hnb
        have ht : t = ((pstr "nabled" ++ sp1 ++ '=' :: sp2) ++ boolChars v) ++
            t.drop ((pstr "nabled" ++ sp1 ++ '=' :: sp2) ++ boolChars v).length := by
          conv_lhs => rw [← List.take_append_drop
            ((pstr "nabled" ++ sp1 ++ '=' :: sp2) ++ boolChars v).length t]
          rw [hagree, ht', List.take_left]
        have hct : c :: t = enabPat sp1 sp2 ++ boolChars v ++
            t.drop ((pstr "nabled" ++ sp1 ++ '=' :: sp2) ++ boolChars v).length := by
          rw [hc]
          conv_lhs => rw [ht]
          rfl
        have hcons := enabledAt_construct hs1 hs2 v
          (t.drop ((pstr "nabled" ++ sp1 ++ '=' :: sp2) ++ boolChars v).length)
        have hH := H 0 (fun x hx => absurd hx (List.not_mem_nil x))
        rw [List.drop_zero, hct, hcons] at hH
        cases hH
    | succ j' =>
      rw [List.take_succ_cons, bracelessL_cons] at hbl
      rw [List.drop_succ_cons]
      refine ih ?_ j' hbl.2
      intro i hbli
      have hHi := H (i + 1) (by
        rw [List.take_succ_cons, bracelessL_cons]
        exact ⟨hbl.1, hbli⟩)
      rw [List.drop_succ_cons] at hHi
      exact hHi
  | rep hm hr ih =>
    rename_i s r p v
    intro H j hbl
    exfalso
    obtain ⟨sp1, sp2, rest, q, sp3, sp4, hph, hle, hs1, hs2, hs3, hs4, hsdec,
      hrest, htkq, hbrq, hp, htake, hdrop, hmax⟩ := matchAt_split hm
    have hbl2 : bracelessL (s.take ((headPat W sp1 sp2).length + q)) := by
      rw [hsdec, take_add_len]
      intro x hx
      rcases List.mem_append.mp hx with h | h
      · exact headPat_mem_ne hW hs1 hs2 h
      · exact hbrq x h
    have hdrop2 : s.drop ((headPat W sp1 sp2).length + q) = rest.drop q := by
      rw [hsdec, drop_add_len]
    have hH := H ((headPat W sp1 sp2).length + q) hbl2
    rw [hdrop2, (lastEnabled_some_spec hle).1] at hH
    cases hH

theorem headPat_cons_eq (W sp1 sp2 : List Char) :
    headPat W sp1 sp2 =
      '[' :: ('"' :: (W ++ '"' :: ']' :: sp1 ++ '=' :: sp2 ++ [lbrace])) := rfl

theorem rel_matchAt_none {W : List Char} {e : Bool} (hW : goodId W)
    {c : Char} {t t' : List Char}
    (h : matchAt W (c :: t) = none) (hrel : Rel W e t t') :
    matchAt W (c :: t') = none := by
  rcases hm : matchAt W (c :: t') with _ | ⟨p', v'⟩
  · rfl
  exfalso
  obtain ⟨hh, rest', q', l', hph', hle', hp'⟩ := matchAt_elim hm
  obtain ⟨sp1, sp2, hdec, hhh, hs1, hs2⟩ := parseHead_inversion hph'
  rw [headPat_cons_eq, List.cons_append] at hdec
  injection hdec with hc ht'
  have hnb : ∀ x ∈
      t'.take ('"' :: (W ++ '"' :: ']' :: sp1 ++ '=' :: sp2 ++ [lbrace])).length,
      x ≠ '[' := by
    rw [ht', List.take_left]
    exact fun x hx => headPat_tail_mem_ne hW hs1 hs2 hx
  obtain ⟨hagree, hreldrop⟩ := rel_take_drop hrel _ hnb
  have hdropt' : t'.drop
      ('"' :: (W ++ '"' :: ']' :: sp1 ++ '=' :: sp2 ++ [lbrace])).length = rest' := by
    rw [ht']
    exact List.drop_left _ _
  have ht : t = ('"' :: (W ++ '"' :: ']' :: sp1 ++ '=' :: sp2 ++ [lbrace])) ++
      t.drop ('"' :: (W ++ '"' :: ']' :: sp1 ++ '=' :: sp2 ++ [lbrace])).length := by
    conv_lhs => rw [← List.take_append_drop
      ('"' :: (W ++ '"' :: ']' :: sp1 ++ '=' :: sp2 ++ [lbrace])).length t]
    rw [hagree, ht', List.take_left]
  have hct : c :: t = headPat W sp1 sp2 ++
      t.drop ('"' :: (W ++ '"' :: ']' :: sp1 ++ '=' :: sp2 ++ [lbrace])).length := by
    rw [hc, headPat_cons_eq]
    conv_lhs => rw [ht]
    rfl
  have hph : parseHead W (c :: t) =
      some (4 + W.length + sp1.length + 1 + sp2.length + 1,
        t.drop ('"' :: (W ++ '"' :: ']' :: sp1 ++ '=' :: sp2 ++ [lbrace])).length) := by
    rw [hct]
    exact parseHead_construct hs1 hs2
  have hlenone : lastEnabled
      (t.drop ('"' :: (W ++ '"' :: ']' :: sp1 ++ '=' :: sp2 ++ [lbrace])).length) =
      none := matchAt_none_elim h hph
  rw [hdropt'] at hreldrop
  have hnosucc := rel_no_success hW hreldrop (lastEnabled_none_spec hlenone)
  obtain ⟨e1, e2, _⟩ := lastEnabled_some_spec hle'
  have hfin := hnosucc q' e2
  rw [e1] at hfin
  cases hfin

theorem drop_append_le {α : Type} (l₁ l₂ : List α) {n : Nat} (h : n ≤ l₁.length) :
    (l₁ ++ l₂).drop n = l₁.drop n ++ l₂ := by
  rw [List.drop_append_eq_append_drop, show n - l₁.length = 0 from by omega,
    List.drop_zero]

theorem enabledAt_space_drop {sp : List Char} (hsp : isSpaceList sp) :
    ∀ k (X : List Char), k < sp.length → enabledAt (sp.drop k ++ X) = none := by
  induction sp with
  | nil => intro k X hk; simp at hk
  | cons c t ih =>
    intro k X hk
    cases k with
    | zero =>
      rw [List.drop_zero, List.cons_append]
      exact enabledAt_ne_e (isPySpace_ne_e (hsp c (List.mem_cons_self _ _)))
    | succ k' =>
      rw [List.drop_succ_cons]
      exact ih (fun x hx => hsp x (List.mem_cons_of_mem _ hx)) k' X
        (by simp at hk; omega)

theorem enabledAt_ed (Z : List Char) : enabledAt ('e' :: 'd' :: Z) = none := by
  unfold enabledAt
  rw [show stripLit (pstr "enabled") ('e' :: 'd' :: Z) = none from by
    rw [pstr_enabled_eq]
    simp [stripLit]]

theorem enabledAt_val_drop (v : Bool) :
    ∀ k (X : List Char), k < vlen v - 1 →
      enabledAt ((boolChars v).drop k ++ X) = none := by
  intro k X hk
  cases v with
  | true =>
    rw [boolChars_true_eq]
    have hk' : k < 3 := by
      have hv : vlen true = 4 := rfl
      omega
    interval_cases k <;>
      (simp only [List.drop]; rw [List.cons_append];
       exact enabledAt_ne_e (by decide))
  | false =>
    rw [boolChars_false_eq]
    have hk' : k < 4 := by
      have hv : vlen false = 5 := rfl
      omega
    interval_cases k <;>
      (simp only [List.drop]; rw [List.cons_append];
       exact enabledAt_ne_e (by decide))

/-- Strictly inside a successful `enabledAt` span (before its final char),
no other `enabledAt` success can start. -/
theorem enabledAt_inside {u : List Char} {l : Nat} {v : Bool}
    (h : enabledAt u = some (l, v)) :
    ∀ i, 0 < i → i < l + vlen v - 1 → enabledAt (u.drop i) = none := by
  obtain ⟨sp1, sp2, rest, hu, hl, hs1, hs2⟩ := enabledAt_inversion h
  intro i h0 hi
  subst hu
  have hvl : 0 < vlen v := vlen_pos v
  have h7 : (pstr "enabled").length = 7 := rfl
  have hspanlen : (enabPat sp1 sp2 ++ boolChars v).length =
      7 + sp1.length + 1 + sp2.length + vlen v := by
    rw [List.length_append, enabPat_length,
      show (boolChars v).length = vlen v from rfl]
  have hsplit : ((enabPat sp1 sp2 ++ boolChars v) ++ rest).drop i =
      (enabPat sp1 sp2 ++ boolChars v).drop i ++ rest :=
    drop_append_le _ _ (by rw [hspanlen]; omega)
  rw [hsplit]
  rcases Nat.lt_or_ge i 7 with hA | hA
  · have hform : (enabPat sp1 sp2 ++ boolChars v).drop i =
        (pstr "enabled").drop i ++ (sp1 ++ (('=' :: sp2) ++ boolChars v)) := by
      show (((pstr "enabled" ++ sp1) ++ ('=' :: sp2)) ++ boolChars v).drop i = _
      rw [drop_append_le _ _ (by
        rw [List.length_append, List.length_append, List.length_cons, h7]
        omega)]
      rw [drop_append_le _ _ (by rw [List.length_append, h7]; omega)]
      rw [drop_append_le _ _ (by rw [h7]; omega)]
      rw [List.append_assoc, List.append_assoc]
    rw [hform, List.append_assoc]
    interval_cases i <;>
      first
        | exact enabledAt_ne_e (by decide)
        | exact enabledAt_ed _
  rcases Nat.lt_or_ge i (7 + sp1.length) with hB | hB
  · have hform : (enabPat sp1 sp2 ++ boolChars v).drop i =
        sp1.drop (i - 7) ++ (('=' :: sp2) ++ boolChars v) := by
      show (((pstr "enabled" ++ sp1) ++ ('=' :: sp2)) ++ boolChars v).drop i = _
      rw [drop_append_le _ _ (by
        rw [List.length_append, List.length_append, List.length_cons, h7]
        omega)]
      rw [drop_append_le _ _ (by rw [List.length_append, h7]; omega)]
      have hd : (pstr "enabled" ++ sp1).drop i = sp1.drop (i - 7) := by
        conv_lhs => rw [show i = (pstr "enabled").length + (i - 7) from by
          rw [h7]; omega]
        exact drop_add_len _ _ _
      rw [hd, List.append_assoc]
    rw [hform, List.append_assoc]
    exact enabledAt_space_drop hs1 (i - 7) _ (by omega)
  rcases Nat.lt_or_ge i (8 + sp1.length) with hC | hC
  · have hform : (enabPat sp1 sp2 ++ boolChars v).drop i =
        ('=' :: sp2) ++ boolChars v := by
      show (((pstr "enabled" ++ sp1) ++ ('=' :: sp2)) ++ boolChars v).drop i = _
      rw [drop_append_le _ _ (by
        rw [List.length_append, List.length_append, List.length_cons, h7]
        omega)]
      have hd : ((pstr "enabled" ++ sp1) ++ ('=' :: sp2)).drop i =
          '=' :: sp2 := by
        conv_lhs => rw [show i = (pstr "enabled" ++ sp1).length + 0 from by
          rw [List.length_append, h7]; omega]
        rw [drop_add_len, List.drop_zero]
      rw [hd]
    rw [hform]
    exact enabledAt_ne_e (by decide)
  rcases Nat.lt_or_ge i (8 + sp1.length + sp2.length) with hD | hD
  · have hform : (enabPat sp1 sp2 ++ boolChars v).drop i =
        sp2.drop (i - (8 + sp1.length)) ++ boolChars v := by
      show (((pstr "enabled" ++ sp1) ++ ('=' :: sp2)) ++ boolChars v).drop i = _
      rw [drop_append_le _ _ (by
        rw [List.length_append, List.length_append, List.length_cons, h7]
        omega)]
      have hd : ((pstr "enabled" ++ sp1) ++ ('=' :: sp2)).drop i =
          sp2.drop (i - (8 + sp1.length)) := by
        have hs : ('=' :: sp2).drop (i - (7 + sp1.length)) =
            sp2.drop (i - (8 + sp1.length)) := by
          rw [show i - (7 + sp1.length) = (i - (8 + sp1.length)) + 1 from by
            omega]
          rw [List.drop_succ_cons]
        conv_lhs => rw [show i = (pstr "enabled" ++ sp1).length +
          (i - (7 + sp1.length)) from by rw [List.length_append, h7]; omega]
        rw [drop_add_len, hs]
      rw [hd]
    rw [hform, List.append_assoc]
    exact enabledAt_space_drop hs2 (i - (8 + sp1.length)) _ (by omega)
  · have hform : (enabPat sp1 sp2 ++ boolChars v).drop i =
        (boolChars v).drop (i - (8 + sp1.length + sp2.length)) := by
      conv_lhs => rw [show i = (enabPat sp1 sp2).length +
        (i - (8 + sp1.length + sp2.length)) from by rw [enabPat_length]; omega]
      exact drop_add_len _ _ _
    rw [hform]
    exact enabledAt_val_drop v (i - (8 + sp1.length + sp2.length)) rest
      (by omega)

/-- After replacing the matched value with `e` and rewriting the tail by
the scan relation, the toggle pattern still matches at the same position,
now capturing `e`. -/
theorem rel_matchAt_replaced {W : List Char} {e : Bool} (hW : goodId W)
    {s r : List Char} {p : Nat} {v : Bool}
    (h : matchAt W s = some (p, v))
    (hrel : Rel W e (s.drop (p + vlen v)) r) :
    matchAt W (s.take p ++ boolChars e ++ r) = some (p, e) := by
  obtain ⟨sp1, sp2, rest, q, sp3, sp4, hph, hle, hs1, hs2, hs3, hs4, hsdec,
    hrest, htkq, hbrq, hp, htake, hdrop, hmax⟩ := matchAt_split h
  rw [hdrop] at hrel
  have hvv := vlen_pos v
  have hve := vlen_pos e
  have hLpos : 0 < (enabPat sp3 sp4).length := by rw [enabPat_length]; omega
  have hdropq : ∀ (w : Bool) (X : List Char),
      (rest.take q ++ (enabPat sp3 sp4 ++ (boolChars w ++ X))).drop q =
        enabPat sp3 sp4 ++ (boolChars w ++ X) :=
    fun w X => List.drop_left' htkq
  have hdropfull : ∀ (w : Bool) (X : List Char) (j0 : Nat),
      (rest.take q ++ (enabPat sp3 sp4 ++ (boolChars w ++ X))).drop
        (q + (enabPat sp3 sp4).length + vlen w + j0) = X.drop j0 := by
    intro w X j0
    rw [show q + (enabPat sp3 sp4).length + vlen w + j0 =
        (rest.take q).length + ((enabPat sp3 sp4).length +
          ((boolChars w).length + j0)) from by
      rw [htkq, show (boolChars w).length = vlen w from rfl]; omega]
    rw [drop_add_len, drop_add_len, drop_add_len]
  have htakefull : ∀ (w : Bool) (X : List Char) (j0 : Nat),
      (rest.take q ++ (enabPat sp3 sp4 ++ (boolChars w ++ X))).take
        (q + (enabPat sp3 sp4).length + vlen w + j0) =
        rest.take q ++ (enabPat sp3 sp4 ++ (boolChars w ++ X.take j0)) := by
    intro w X j0
    rw [show q + (enabPat sp3 sp4).length + vlen w + j0 =
        (rest.take q).length + ((enabPat sp3 sp4).length +
          ((boolChars w).length + j0)) from by
      rw [htkq, show (boolChars w).length = vlen w from rfl]; omega]
    rw [take_add_len, take_add_len, take_add_len]
  have hstraddledrop : ∀ (w : Bool) (X : List Char),
      (rest.take q ++ (enabPat sp3 sp4 ++ (boolChars w ++ X))).drop
        (q + (enabPat sp3 sp4).length + (vlen w - 1)) = 'e' :: X := by
    intro w X
    rw [show q + (enabPat sp3 sp4).length + (vlen w - 1) =
        (rest.take q).length + ((enabPat sp3 sp4).length + (vlen w - 1)) from by
      rw [htkq]; omega]
    rw [drop_add_len, drop_add_len]
    cases w <;> rfl
  have hstraddletake : ∀ (w : Bool) (X : List Char),
      (rest.take q ++ (enabPat sp3 sp4 ++ (boolChars w ++ X))).take
        (q + (enabPat sp3 sp4).length + (vlen w - 1)) =
        rest.take q ++ (enabPat sp3 sp4 ++
          (boolChars w).take (vlen w - 1)) := by
    intro w X
    rw [show q + (enabPat sp3 sp4).length + (vlen w - 1) =
        (rest.take q).length + ((enabPat sp3 sp4).length + (vlen w - 1)) from by
      rw [htkq]; omega]
    rw [take_add_len, take_add_len]
    refine congrArg (fun z => rest.take q ++ (enabPat sp3 sp4 ++ z)) ?_
    cases w <;> rfl
  have hbltake : ∀ (w : Bool) (X : List Char) (j0 : Nat),
      bracelessL (X.take j0) →
      bracelessL ((rest.take q ++ (enabPat sp3 sp4 ++ (boolChars w ++ X))).take
        (q + (enabPat sp3 sp4).length + vlen w + j0)) := by
    intro w X j0 hX
    rw [htakefull]
    intro x hx
    rcases List.mem_append.mp hx with hx | hx
    · exact hbrq x hx
    rcases List.mem_append.mp hx with hx | hx
    · exact (enabPat_mem_ne hs3 hs4 hx).2
    rcases List.mem_append.mp hx with hx | hx
    · exact (boolChars_mem_ne hx).2
    · exact hX x hx
  have hbltake' : ∀ (w : Bool) (X : List Char) (j0 : Nat),
      bracelessL ((rest.take q ++ (enabPat sp3 sp4 ++ (boolChars w ++ X))).take
        (q + (enabPat sp3 sp4).length + vlen w + j0)) →
      bracelessL (X.take j0) := by
    intro w X j0 hbl
    rw [htakefull] at hbl
    intro x hx
    refine hbl x ?_
    rw [List.mem_append, List.mem_append, List.mem_append]
    exact Or.inr (Or.inr (Or.inr hx))
  have hD : ∀ j0, bracelessL
        ((rest.drop (q + (enabPat sp3 sp4).length + vlen v)).take j0) →
      enabledAt
        ((rest.drop (q + (enabPat sp3 sp4).length + vlen v)).drop j0) = none := by
    intro j0 hbl
    have h1 := hbltake v (rest.drop (q + (enabPat sp3 sp4).length + vlen v))
      j0 hbl
    rw [← hrest] at h1
    have h2 := hmax (q + (enabPat sp3 sp4).length + vlen v + j0) (by omega) h1
    have h3 := hdropfull v (rest.drop (q + (enabPat sp3 sp4).length + vlen v)) j0
    rw [← hrest] at h3
    rw [h3] at h2
    exact h2
  have hnos_r := rel_no_success hW hrel hD
  have hstrD : enabledAt
      ('e' :: rest.drop (q + (enabPat sp3 sp4).length + vlen v)) = none := by
    have hbl : bracelessL
        (rest.take (q + (enabPat sp3 sp4).length + (vlen v - 1))) := by
      have h1 := hstraddletake v
        (rest.drop (q + (enabPat sp3 sp4).length + vlen v))
      rw [← hrest] at h1
      rw [h1]
      intro x hx
      rcases List.mem_append.mp hx with hx | hx
      · exact hbrq x hx
      rcases List.mem_append.mp hx with hx | hx
      · exact (enabPat_mem_ne hs3 hs4 hx).2
      · exact (boolChars_mem_ne (List.mem_of_mem_take hx)).2
    have h2 := hmax (q + (enabPat sp3 sp4).length + (vlen v - 1))
      (by omega) hbl
    have h3 := hstraddledrop v
      (rest.drop (q + (enabPat sp3 sp4).length + vlen v))
    rw [← hrest] at h3
    rw [h3] at h2
    exact h2
  have hstr_r : enabledAt ('e' :: r) = none := by
    rcases hea : enabledAt ('e' :: r) with _ | g
    · rfl
    exfalso
    rcases g with ⟨l', v'⟩
    obtain ⟨sp1', sp2', rest'', hdec, hl', hs1', hs2'⟩ := enabledAt_inversion hea
    rw [spanTail_eq] at hdec
    rw [List.cons_append] at hdec
    injection hdec with hc hr'
    have hnb : ∀ x ∈
        r.take ((pstr "nabled" ++ sp1' ++ '=' :: sp2') ++ boolChars v').length,
        x ≠ '[' := by
      rw [hr', List.take_left]
      intro x hx
      have hx2 : x ∈ enabPat sp1' sp2' ++ boolChars v' := by
        rw [spanTail_eq]
        exact List.mem_cons_of_mem _ hx
      rcases List.mem_append.mp hx2 with hh | hh
      · exact (enabPat_mem_ne hs1' hs2' hh).1
      · exact (boolChars_mem_ne hh).1
    obtain ⟨hagree, _⟩ := rel_take_drop hrel _ hnb
    have hD2 : rest.drop (q + (enabPat sp3 sp4).length + vlen v) =
        ((pstr "nabled" ++ sp1' ++ '=' :: sp2') ++ boolChars v') ++
          (rest.drop (q + (enabPat sp3 sp4).length + vlen v)).drop
            ((pstr "nabled" ++ sp1' ++ '=' :: sp2') ++ boolChars v').length := by
      conv_lhs => rw [← List.take_append_drop
        ((pstr "nabled" ++ sp1' ++ '=' :: sp2') ++ boolChars v').length
        (rest.drop (q + (enabPat sp3 sp4).length + vlen v))]
      rw [hagree, hr', List.take_left]
    have hctD : 'e' :: rest.drop (q + (enabPat sp3 sp4).length + vlen v) =
        enabPat sp1' sp2' ++ boolChars v' ++
          (rest.drop (q + (enabPat sp3 sp4).length + vlen v)).drop
            ((pstr "nabled" ++ sp1' ++ '=' :: sp2') ++ boolChars v').length := by
      conv_lhs => rw [hD2]
      rfl
    have hcons := enabledAt_construct hs1' hs2' v'
      ((rest.drop (q + (enabPat sp3 sp4).length + vlen v)).drop
        ((pstr "nabled" ++ sp1' ++ '=' :: sp2') ++ boolChars v').length)
    rw [← hctD] at hcons
    rw [hcons] at hstrD
    cases hstrD
  have hs' : s.take p ++ boolChars e ++ r =
      headPat W sp1 sp2 ++
        (rest.take q ++ (enabPat sp3 sp4 ++ (boolChars e ++ r))) := by
    rw [htake]
    simp only [List.append_assoc]
  have hEq : enabledAt
      ((rest.take q ++ (enabPat sp3 sp4 ++ (boolChars e ++ r))).drop q) =
      some ((enabPat sp3 sp4).length, e) := by
    rw [hdropq e r, ← List.append_assoc, enabPat_length]
    exact enabledAt_construct hs3 hs4 e r
  have hBrq' : bracelessL
      ((rest.take q ++ (enabPat sp3 sp4 ++ (boolChars e ++ r))).take q) := by
    rw [List.take_left' htkq]
    exact hbrq
  have hMax' : ∀ j, q < j →
      bracelessL ((rest.take q ++ (enabPat sp3 sp4 ++ (boolChars e ++ r))).take j) →
      enabledAt
        ((rest.take q ++ (enabPat sp3 sp4 ++ (boolChars e ++ r))).drop j) =
        none := by
    intro j hj hbl
    rcases Nat.lt_or_ge j (q + (enabPat sp3 sp4).length + vlen e - 1) with
      hja | hja
    · have hdd : (rest.take q ++ (enabPat sp3 sp4 ++ (boolChars e ++ r))).drop j =
          ((rest.take q ++
            (enabPat sp3 sp4 ++ (boolChars e ++ r))).drop q).drop (j - q) := by
        rw [List.drop_drop]
        congr 1
        omega
      rw [hdd]
      exact enabledAt_inside hEq (j - q) (by omega) (by omega)
    rcases Nat.eq_or_lt_of_le hja with hjb | hjb
    · subst hjb
      rw [show q + (enabPat sp3 sp4).length + vlen e - 1 =
          q + (enabPat sp3 sp4).length + (vlen e - 1) from by omega]
      rw [hstraddledrop e r]
      exact hstr_r
    · have hj0 : j = q + (enabPat sp3 sp4).length + vlen e +
          (j - (q + (enabPat sp3 sp4).length + vlen e)) := by omega
      rw [hj0] at hbl ⊢
      rw [hdropfull e r (j - (q + (enabPat sp3 sp4).length + vlen e))]
      exact hnos_r _ (hbltake' e r _ hbl)
  have hph' : parseHead W (headPat W sp1 sp2 ++
      (rest.take q ++ (enabPat sp3 sp4 ++ (boolChars e ++ r)))) =
      some ((headPat W sp1 sp2).length,
        rest.take q ++ (enabPat sp3 sp4 ++ (boolChars e ++ r))) := by
    rw [headPat_length]
    exact parseHead_construct hs1 hs2
  have hle' : lastEnabled (rest.take q ++ (enabPat sp3 sp4 ++ (boolChars e ++ r))) =
      some (q, (enabPat sp3 sp4).length, e) :=
    lastEnabled_construct hEq hBrq' hMax'
  rw [hs', hp]
  exact matchAt_intro hph' hle'

theorem matchAt_le_length {W s : List Char} {p : Nat} {v : Bool}
    (h : matchAt W s = some (p, v)) : p + vlen v ≤ s.length := by
  obtain ⟨sp1, sp2, rest, q, sp3, sp4, _, _, _, _, _, _, hsdec, hrest, htkq,
    _, hp, _, _, _⟩ := matchAt_split h
  have hr : rest.length = q + ((enabPat sp3 sp4).length + (vlen v +
      (rest.drop (q + (enabPat sp3 sp4).length + vlen v)).length)) := by
    conv_lhs => rw [hrest]
    rw [List.length_append, List.length_append, List.length_append, htkq,
      show (boolChars v).length = vlen v from rfl]
  rw [hsdec, List.length_append, hp]
  omega

theorem matchAt_recon {W s : List Char} {p : Nat} {v : Bool}
    (h : matchAt W s = some (p, v)) :
    s.take p ++ boolChars v ++ s.drop (p + vlen v) = s := by
  obtain ⟨sp1, sp2, rest, q, sp3, sp4, _, _, _, _, _, _, hsdec, hrest, _,
    _, _, htake, hdrop, _⟩ := matchAt_split h
  rw [htake, hdrop, hsdec]
  conv_rhs => rw [hrest]
  simp only [List.append_assoc]

theorem toggleScanAux_snd_indep (W : List Char) (a b : Bool) :
    ∀ fuel s, (toggleScanAux W a fuel s).2 = (toggleScanAux W b fuel s).2 := by
  intro fuel
  induction fuel with
  | zero => intro s; rfl
  | succ m ih =>
    intro s
    cases s with
    | nil => rfl
    | cons c t =>
      cases hm : matchAt W (c :: t) with
      | none =>
        simp only [toggleScanAux, hm]
        rcases h1 : toggleScanAux W a m t with ⟨r1, vs1⟩
        rcases h2 : toggleScanAux W b m t with ⟨r2, vs2⟩
        have h3 := ih t
        rw [h1, h2] at h3
        exact h3
      | some g =>
        rcases g with ⟨p, v⟩
        simp only [toggleScanAux, hm]
        rcases h1 : toggleScanAux W a m ((c :: t).drop (p + vlen v)) with
          ⟨r1, vs1⟩
        rcases h2 : toggleScanAux W b m ((c :: t).drop (p + vlen v)) with
          ⟨r2, vs2⟩
        have h3 := ih ((c :: t).drop (p + vlen v))
        rw [h1, h2] at h3
        exact congrArg (List.cons v) h3

theorem toggleScan_snd_indep (W : List Char) (a b : Bool) (s : List Char) :
    (toggleScan W a s).2 = (toggleScan W b s).2 :=
  toggleScanAux_snd_indep W a b s.length s

/-- Scanning back with the original value `v0` undoes a scan that wrote
`e`, provided every value the first scan captured was `v0`. -/
theorem toggleScan_restore {W : List Char} (hW : goodId W) (e v0 : Bool) :
    ∀ n s, s.length ≤ n →
      (∀ u ∈ (toggleScan W e s).2, u = v0) →
      toggleScan W v0 (toggleScan W e s).1 =
        (s, (toggleScan W e s).2.map (fun _ => e)) := by
  intro n
  induction n with
  | zero =>
    intro s hs _
    have : s = [] := List.length_eq_zero.mp (by omega)
    subst this
    rfl
  | succ m ih =>
    intro s hs hvals
    cases s with
    | nil => rfl
    | cons c t =>
      cases hm : matchAt W (c :: t) with
      | none =>
        rcases hE : toggleScan W e t with ⟨A, B⟩
        have h1 : toggleScan W e (c :: t) = (c :: A, B) := by
          rw [toggleScan_cons_none hm, hE]
        rw [h1] at hvals ⊢
        show toggleScan W v0 (c :: A) = (c :: t, B.map (fun _ => e))
        have hrelA : Rel W e t A := by
          have h2 := toggleScan_rel W e t.length t le_rfl
          rw [hE] at h2
          exact h2
        have hmn : matchAt W (c :: A) = none := rel_matchAt_none hW hm hrelA
        rw [toggleScan_cons_none hmn]
        have hrecA : toggleScan W v0 A = (t, B.map (fun _ => e)) := by
          have h2 := ih t (by simp only [List.length_cons] at hs; omega)
            (fun u hu => hvals u (by rw [hE] at hu; exact hu))
          rw [hE] at h2
          exact h2
        rw [hrecA]
      | some g =>
        rcases g with ⟨p, v⟩
        rcases hE : toggleScan W e ((c :: t).drop (p + vlen v)) with ⟨A, B⟩
        have h1 : toggleScan W e (c :: t) =
            ((c :: t).take p ++ boolChars e ++ A, v :: B) := by
          rw [toggleScan_cons_some hm, hE]
        rw [h1] at hvals ⊢
        show toggleScan W v0 ((c :: t).take p ++ boolChars e ++ A) =
          (c :: t, (v :: B).map (fun _ => e))
        have hv0 : v = v0 := hvals v (List.mem_cons_self _ _)
        have hrelA : Rel W e ((c :: t).drop (p + vlen v)) A := by
          have h2 := toggleScan_rel W e ((c :: t).drop (p + vlen v)).length _
            le_rfl
          rw [hE] at h2
          exact h2
        have hmr : matchAt W ((c :: t).take p ++ boolChars e ++ A) =
            some (p, e) := rel_matchAt_replaced hW hm hrelA
        obtain ⟨t0, hct0, hp1⟩ := matchAt_cons_lbracket hm
        have hplen : p + vlen v ≤ (c :: t).length := matchAt_le_length hm
        have htkc : (c :: t).take p = c :: t.take (p - 1) := by
          cases p with
          | zero => omega
          | succ pm => rw [List.take_succ_cons, Nat.succ_sub_one]
        have hconsform : (c :: t).take p ++ boolChars e ++ A =
            c :: (t.take (p - 1) ++ boolChars e ++ A) := by
          rw [htkc, List.cons_append, List.cons_append]
        rw [hconsform] at hmr
        rw [hconsform, toggleScan_cons_some hmr, ← hconsform]
        have hlenctp : ((c :: t).take p).length = p := by
          rw [List.length_take]
          have := vlen_pos v
          omega
        have hs'take : ((c :: t).take p ++ boolChars e ++ A).take p =
            (c :: t).take p := by
          rw [List.append_assoc]
          exact List.take_left' hlenctp
        have hs'drop : ((c :: t).take p ++ boolChars e ++ A).drop
            (p + vlen e) = A := by
          rw [List.append_assoc]
          rw [show p + vlen e = ((c :: t).take p).length +
              ((boolChars e).length + 0) from by
            rw [hlenctp, show (boolChars e).length = vlen e from rfl]
            omega]
          rw [drop_add_len, drop_add_len, List.drop_zero]
        have hrecA : toggleScan W v0 A =
            ((c :: t).drop (p + vlen v), B.map (fun _ => e)) := by
          have hlenD : ((c :: t).drop (p + vlen v)).length ≤ m := by
            rw [List.length_drop]
            have := vlen_pos v
            simp only [List.length_cons] at hs ⊢
            omega
          have h2 := ih ((c :: t).drop (p + vlen v)) hlenD
            (fun u hu => hvals u (by
              rw [hE] at hu
              exact List.mem_cons_of_mem _ hu))
          rw [hE] at h2
          exact h2
        rw [hs'take, hs'drop, hrecA, ← hv0]
        have hrecon := matchAt_recon hm
        simp only [Prod.mk.injEq]
        exact ⟨hrecon, rfl⟩

end DSTFish.ModManager

/-- **C1.** For every workshop id `W` (well-formed: alphanumerics, `-`,
`_`), shard override file content in which every value captured by the
toggle pattern equals the original enabled value `eOrig`, and any first
toggle value `e`: calling `toggle_mod W e` and then `toggle_mod W eOrig`
(flip and flip back to the original value) restores the shard's override
file state byte for byte — including the case where the pattern does not
match at all and neither call writes. -/
theorem C1_toggle_twice_restores_file
    (W : List Char) (hW : DSTFish.ModManager.goodId W) (e eOrig : Bool)
    (fs : DSTFish.ModManager.ShardFS) (content : List Char)
    (hfile : fs.file = some content)
    (hvals : ∀ u ∈ (DSTFish.ModManager.toggleScan W e content).2, u = eOrig) :
    (DSTFish.ModManager.toggle_mod W eOrig
      (DSTFish.ModManager.toggle_mod W e fs).2).2 = fs := by
  rcases hE : DSTFish.ModManager.toggleScan W e content with ⟨nc, vals⟩
  cases vals with
  | nil =>
    have h2zero : (DSTFish.ModManager.toggleScan W eOrig content).2 = [] := by
      rw [DSTFish.ModManager.toggleScan_snd_indep W eOrig e, hE]
    have h1 : DSTFish.ModManager.toggle_mod W e fs = (false, fs) := by
      simp only [DSTFish.ModManager.toggle_mod, hfile, hE]
      rw [if_neg (by simp)]
    rcases hE2 : DSTFish.ModManager.toggleScan W eOrig content with ⟨nc2, vals2⟩
    have hv2 : vals2 = [] := by
      rw [hE2] at h2zero
      exact h2zero
    subst hv2
    have h2 : DSTFish.ModManager.toggle_mod W eOrig fs = (false, fs) := by
      simp only [DSTFish.ModManager.toggle_mod, hfile, hE2]
      rw [if_neg (by simp)]
    rw [h1]
    show (DSTFish.ModManager.toggle_mod W eOrig fs).2 = fs
    rw [h2]
  | cons v0 vrest =>
    have h1 : DSTFish.ModManager.toggle_mod W e fs =
        (true, { fs with file := some nc }) := by
      simp only [DSTFish.ModManager.toggle_mod, hfile, hE]
      rw [if_pos (by simp)]
    have hrest : DSTFish.ModManager.toggleScan W eOrig nc =
        (content, (v0 :: vrest).map (fun _ => e)) := by
      have h3 := DSTFish.ModManager.toggleScan_restore hW e eOrig
        content.length content le_rfl hvals
      rw [hE] at h3
      exact h3
    have h2 : DSTFish.ModManager.toggle_mod W eOrig
        { fs with file := some nc } =
        (true, { fs with file := some content }) := by
      simp only [DSTFish.ModManager.toggle_mod, hrest]
      rw [if_pos (by simp)]
    rw [h1]
    show (DSTFish.ModManager.toggle_mod W eOrig
      { fs with file := some nc }).2 = fs
    rw [h2]
    show { fs with file := some content } = fs
    rcases fs with ⟨pe, f⟩
    rw [show f = some content from hfile]

/-- Witness for C1: a file with one `workshop-123` block whose original
enabled value is `true`; toggling to `false` and back to `true` restores
the exact content. -/
theorem C1_toggle_twice_restores_file_witness :
    DSTFish.ModManager.goodId (DSTFish.pstr "workshop-123") ∧
    (({ parentExists := true,
        file := some (DSTFish.pstr
          "return \x7b\n  [\"workshop-123\"]=\x7b enabled=true \x7d,\n\x7d\n") } :
       DSTFish.ModManager.ShardFS).file =
      some (DSTFish.pstr
        "return \x7b\n  [\"workshop-123\"]=\x7b enabled=true \x7d,\n\x7d\n")) ∧
    (∀ u ∈ (DSTFish.ModManager.toggleScan (DSTFish.pstr "workshop-123") false
        (DSTFish.pstr
          "return \x7b\n  [\"workshop-123\"]=\x7b enabled=true \x7d,\n\x7d\n")).2,
      u = true) ∧
    (DSTFish.ModManager.toggle_mod (DSTFish.pstr "workshop-123") true
      (DSTFish.ModManager.toggle_mod (DSTFish.pstr "workshop-123") false
        { parentExists := true,
          file := some (DSTFish.pstr
            "return \x7b\n  [\"workshop-123\"]=\x7b enabled=true \x7d,\n\x7d\n") }).2).2 =
      { parentExists := true,
        file := some (DSTFish.pstr
          "return \x7b\n  [\"workshop-123\"]=\x7b enabled=true \x7d,\n\x7d\n") } :=
  ⟨by unfold DSTFish.ModManager.goodId; decide, rfl, by decide,
    C1_toggle_twice_restores_file (DSTFish.pstr "workshop-123")
      (by unfold DSTFish.ModManager.goodId; decide)
      false true _ _ rfl (by decide)⟩
